import Mathlib

/-!
Verification development for the schemadoc schema-resolution core
(github.com/woozymasta/schemadoc).

The Go source is shallowly embedded: JSON values become an inductive
type, Go maps become association lists (Go iterates maps only through
explicitly sorted key lists, so list order never stands in for map
order), and the mutually recursive synthesizer is written with an
explicit fuel parameter returning `Option` (`none` = fuel exhausted);
the Go recursion always terminates on finite documents, and concrete
runs are evaluated with ample fuel.  The example builder's mutable
`activeRefs` map is threaded explicitly as state.
-/

set_option maxHeartbeats 1000000

namespace Schemadoc

/-- JSON value tree, the result of decoding a schema document
(Go `any` holding `nil | bool | json.Number | string | []any | map[string]any`).
Objects are association lists of key/value pairs. -/
inductive JSON where
  | null : JSON
  | bool (b : Bool) : JSON
  | num (n : Int) : JSON
  | str (s : String) : JSON
  | arr (xs : List JSON) : JSON
  | obj (fs : List (String × JSON)) : JSON

/-- A decoded JSON object (Go `map[string]any`). -/
abbrev Obj := List (String × JSON)

/-- Modelled from the spec (§3 Schema Value Model): one JSON Schema node,
exactly one of a boolean flag or an object mapping; neither populated is
the invalid/zero node (Go `schemaValue` with `Bool *bool` and
`Object map[string]any`). -/
structure SchemaValue where
  bval : Option Bool
  objv : Option Obj

/-- The zero `schemaValue` (Go `schemaValue{}`, `isZero` true). -/
def zeroSchemaValue : SchemaValue := ⟨none, none⟩

/- ### String utilities mirroring the Go standard library calls used by the source -/

/-- Whitespace test used to model Go `strings.TrimSpace` (ASCII subset). -/
def isSpaceChar (c : Char) : Bool :=
  c = ' ' || c = '\t' || c = '\n' || c = '\r' || c = '\x0b' || c = '\x0c'

/-- Trim leading and trailing whitespace from a character list. -/
def trimChars (cs : List Char) : List Char :=
  ((cs.dropWhile isSpaceChar).reverse.dropWhile isSpaceChar).reverse

/-- Models Go `strings.TrimSpace`. -/
def trimString (s : String) : String := ⟨trimChars s.data⟩

/-- Models Go `strings.ToLower` (ASCII letters, as in all schema keywords). -/
def lowerString (s : String) : String := ⟨s.data.map Char.toLower⟩

/-- Models Go `strings.HasPrefix p` on `s`. -/
def strStarts (p s : String) : Bool := p.data.isPrefixOf s.data

/-- Drop a leading marker of `n` characters (used with `strStarts`,
models Go `strings.TrimPrefix` after a successful prefix test). -/
def dropChars (n : Nat) (s : String) : String := ⟨s.data.drop n⟩

/-- Split a character list at every occurrence of `sep`
(models Go `strings.Split`/`strings.SplitSeq` on a one-character separator). -/
def splitOnChar (sep : Char) : List Char → List (List Char)
  | [] => [[]]
  | c :: rest =>
    let r := splitOnChar sep rest
    if c = sep then [] :: r
    else
      match r with
      | [] => [[c]]
      | h :: t => (c :: h) :: t

/-- Split a string on a separator character. -/
def splitString (sep : Char) (s : String) : List String :=
  (splitOnChar sep s.data).map (fun cs => ⟨cs⟩)

/-- Left-to-right replacement of `~1` by `/` (first pass of Go
`strings.ReplaceAll(token, "~1", "/")`). -/
def replaceTilde1 : List Char → List Char
  | '~' :: '1' :: rest => '/' :: replaceTilde1 rest
  | c :: rest => c :: replaceTilde1 rest
  | [] => []

/-- Left-to-right replacement of `~0` by `~` (second pass of Go
`strings.ReplaceAll(token, "~0", "~")`). -/
def replaceTilde0 : List Char → List Char
  | '~' :: '0' :: rest => '~' :: replaceTilde0 rest
  | c :: rest => c :: replaceTilde0 rest
  | [] => []

/-- Executable lexicographic comparison on character lists (the order Go
byte-wise string comparison induces on ASCII data). -/
def ltChars : List Char → List Char → Bool
  | [], [] => false
  | [], _ :: _ => true
  | _ :: _, [] => false
  | a :: as, b :: bs => if a < b then true else if b < a then false else ltChars as bs

/-- Executable `≤` on strings. -/
def leStr (a b : String) : Bool := !(ltChars b.data a.data)

/-- Insert a string into a sorted list (insertion-sort step). -/
def insortStr (x : String) : List String → List String
  | [] => [x]
  | y :: ys => if leStr x y then x :: y :: ys else y :: insortStr x ys

/-- Lexicographic string sort (models Go `sort.Strings`). -/
def sortStrings : List String → List String
  | [] => []
  | x :: xs => insortStr x (sortStrings xs)

/-- Models Go `strconv.Atoi` digit parsing. -/
def parseDigits (cs : List Char) : Option Nat :=
  if cs ≠ [] ∧ cs.all Char.isDigit then
    some (cs.foldl (fun acc c => 10 * acc + (c.toNat - 48)) 0)
  else none

/-- Modelled from Go `strconv.Atoi`: optional sign followed by at least
one decimal digit; anything else is an error (`none`). -/
def parseAtoi (s : String) : Option Int :=
  match s.data with
  | '+' :: ds => (parseDigits ds).map Int.ofNat
  | '-' :: ds => (parseDigits ds).map (fun n => -(n : Int))
  | ds => (parseDigits ds).map Int.ofNat

/- ### Schema value model helpers.
The Go file defining these accessors is not part of the treated sources;
they are modelled from the spec (§4.1 Schema Value Model). -/

/-- Modelled from the spec: typed read of a string-valued keyword slot;
a missing or non-string value reads as the empty string (Go `asString`). -/
def asString : Option JSON → String
  | some (.str s) => s
  | _ => ""

/-- Modelled from the spec: typed read of an array-valued keyword slot;
a missing or non-array value reads as the empty list (Go `asSlice`). -/
def asSlice : Option JSON → List JSON
  | some (.arr xs) => xs
  | _ => []

/-- Modelled from the spec: the string entries of an array-valued keyword
slot, non-strings tolerated and dropped (Go `asStringSlice`). -/
def asStringSlice (v : Option JSON) : List String :=
  (asSlice v).filterMap fun j =>
    match j with
    | .str s => some s
    | _ => none

/-- Modelled from the spec: classify a decoded JSON value as a boolean
schema, an object schema, or invalid (Go `toSchemaValue`). -/
def toSchemaValue : Option JSON → Option SchemaValue
  | some (.bool b) => some ⟨some b, none⟩
  | some (.obj fs) => some ⟨none, some fs⟩
  | _ => none

/-- Modelled from the spec: read a keyword slot as a name→schema mapping,
invalid entries skipped (Go `mapSchemaValues`). -/
def mapSchemaValues (v : Option JSON) : List (String × SchemaValue)
  :=
  match v with
  | some (.obj fs) => fs.filterMap fun kv => (toSchemaValue (some kv.2)).map ((kv.1, ·))
  | _ => []

/-- Child property schemas of a node (Go `nodeProperties`). -/
def nodeProperties (node : SchemaValue) : List (String × SchemaValue) :=
  match node.objv with
  | none => []
  | some o => mapSchemaValues (List.lookup "properties" o)

/-- Required property names of a node (Go `nodeRequired`). -/
def nodeRequired (node : SchemaValue) : List String :=
  match node.objv with
  | none => []
  | some o => asStringSlice (List.lookup "required" o)

/-- Deterministic sorted key list of a schema map (Go `sortedSchemaValueKeys`). -/
def sortedSchemaValueKeys (m : List (String × SchemaValue)) : List String :=
  sortStrings (m.map Prod.fst)

/- ### Path joining and definition names (part of the render pipeline) -/

/-- Go `appendPath`: join path segments with a dot, preserving empty parts. -/
def appendPath (base segment : String) : String :=
  let b := trimString base
  let s := trimString segment
  if b = "" then s
  else if s = "" then b
  else b ++ "." ++ s

/-- Go `rootDefinitionName`: extract a definition name from a local
`#/$defs/...` or `#/definitions/...` JSON pointer reference. -/
def rootDefinitionName (ref : String) : String :=
  let r := trimString ref
  if r = "" then ""
  else if strStarts "#/$defs/" r then
    let path := dropChars 8 r
    if path = "" then ""
    else (splitString '/' path).headD ""
  else if strStarts "#/definitions/" r then
    let path := dropChars 14 r
    if path = "" then ""
    else (splitString '/' path).headD ""
  else ""

/- ### Deterministic ordering (Go `propertyOrder`, `definitionOrder`) -/

/-- The required-name loop of Go `propertyOrder`: walk the required list,
skipping names absent from the property map and names already seen,
returning the emitted names and the final seen set. -/
def requiredLoop (properties : List (String × SchemaValue)) :
    List String → List String → List String × List String
  | [], seen => ([], seen)
  | name :: rest, seen =>
    if (List.lookup name properties).isNone then requiredLoop properties rest seen
    else if name ∈ seen then requiredLoop properties rest seen
    else
      let r := requiredLoop properties rest (name :: seen)
      (name :: r.1, r.2)

/-- Go `propertyOrder`: required properties first in declared order
(deduplicated, unknowns dropped), then the remaining property names
sorted lexicographically. -/
def propertyOrder (required : List String)
    (properties : List (String × SchemaValue)) : List String :=
  if properties.isEmpty then []
  else
    let r := requiredLoop properties required []
    let optional := (properties.map Prod.fst).filter (fun n => n ∉ r.2)
    r.1 ++ sortStrings optional

/-- The loop of Go `requiredPropertyOrder`. -/
def requiredOnlyLoop (properties : List (String × SchemaValue)) :
    List String → List String → List String
  | [], _ => []
  | name :: rest, seen =>
    if (List.lookup name properties).isNone then requiredOnlyLoop properties rest seen
    else if name ∈ seen then requiredOnlyLoop properties rest seen
    else name :: requiredOnlyLoop properties rest (name :: seen)

/-- Go `requiredPropertyOrder`: deterministic order over required
properties only. -/
def requiredPropertyOrder (required : List String)
    (properties : List (String × SchemaValue)) : List String :=
  if required.isEmpty || properties.isEmpty then []
  else requiredOnlyLoop properties required []

/-- Go `definitionOrder`: deterministic definition rendering order with
the root definition first. -/
def definitionOrder (defs : List (String × SchemaValue)) (rootName : String) :
    List String :=
  let keys := sortStrings (defs.map Prod.fst)
  if keys.isEmpty then []
  else
    let root0 := trimString rootName
    let root :=
      if root0 = "" then
        if (List.lookup "Config" defs).isSome then "Config" else keys.headD ""
      else root0
    if (List.lookup root defs).isNone then keys
    else root :: keys.filter (fun n => n ≠ root)

/-- Go `isRequired`: membership of a key in the required list. -/
def isRequired (required : List String) (key : String) : Bool :=
  required.contains key

/- ### Definition graph edges (Go `definitionEdge`, `collectDefinitionEdges`) -/

/-- One graph edge from a definition property path to another definition
(Go `definitionEdge`): `(Path, Target)`. -/
abbrev DefEdge := String × String

/-- The edge accumulator keyed by `target ++ "\x00" ++ path`
(Go `map[string]definitionEdge`). -/
abbrev EdgeMap := List (String × DefEdge)

/-- Go `addDefinitionEdge`: store one unique edge under its combined key. -/
def addDefinitionEdge (m : EdgeMap) (path target : String) : EdgeMap :=
  let p := trimString path
  let t := trimString target
  if p = "" || t = "" then m
  else
    let key := t ++ "\x00" ++ p
    if (List.lookup key m).isSome then
      m.map (fun kv => if kv.1 = key then (key, (p, t)) else kv)
    else m ++ [(key, (p, t))]

mutual

/-- Go `collectDefinitionEdges`: recursively collect all referenced
definitions under one schema node (fuelled; the Go recursion is
structural over the finite document). -/
def collectDefinitionEdgesF : Nat → SchemaValue → String → EdgeMap → Option EdgeMap
  | 0, _, _, _ => none
  | fuel + 1, sv, path, m =>
    match sv.objv with
    | none => some m
    | some o => do
      let target := rootDefinitionName (asString (List.lookup "$ref" o))
      let m := if target ≠ "" then addDefinitionEdge m path target else m
      let m ← (asSlice (List.lookup "allOf" o)).foldlM
        (fun m v => collectDefinitionEdgesAnyF fuel (some v) path m) m
      let m ← (asSlice (List.lookup "anyOf" o)).foldlM
        (fun m v => collectDefinitionEdgesAnyF fuel (some v) path m) m
      let m ← (asSlice (List.lookup "oneOf" o)).foldlM
        (fun m v => collectDefinitionEdgesAnyF fuel (some v) path m) m
      let m ← ["if", "then", "else", "not", "contentSchema"].foldlM
        (fun m kw => collectDefinitionEdgesAnyF fuel (List.lookup kw o) path m) m
      let m ← ["items", "prefixItems", "contains", "additionalItems", "unevaluatedItems"].foldlM
        (fun m kw => collectDefinitionEdgesAnyF fuel (List.lookup kw o) (appendPath path "[]") m) m
      let m ← ["additionalProperties", "unevaluatedProperties"].foldlM
        (fun m kw => collectDefinitionEdgesAnyF fuel (List.lookup kw o) (appendPath path "[]") m) m
      let nested := mapSchemaValues (List.lookup "properties" o)
      let m ← (sortedSchemaValueKeys nested).foldlM
        (fun m key =>
          match List.lookup key nested with
          | some child => collectDefinitionEdgesF fuel child (appendPath path key) m
          | none => some m) m
      let nestedPat := mapSchemaValues (List.lookup "patternProperties" o)
      let m ← (sortedSchemaValueKeys nestedPat).foldlM
        (fun m key =>
          match List.lookup key nestedPat with
          | some child => collectDefinitionEdgesF fuel child (appendPath path key) m
          | none => some m) m
      pure m

/-- Go `collectDefinitionEdgesAny`: unwrap arrays and forward schema-like
values to the edge collector. -/
def collectDefinitionEdgesAnyF : Nat → Option JSON → String → EdgeMap → Option EdgeMap
  | 0, _, _, _ => none
  | fuel + 1, raw, path, m =>
    match raw with
    | some (.arr xs) =>
      xs.foldlM (fun m v => collectDefinitionEdgesAnyF fuel (some v) path m) m
    | _ =>
      match toSchemaValue raw with
      | none => some m
      | some sv => collectDefinitionEdgesF fuel sv path m

end

/-- Go `definitionEdges`: extract graph edges from one definition object,
deterministically sorted by combined key. -/
def definitionEdgesF (fuel : Nat) (node : SchemaValue) : Option (List DefEdge) :=
  match node.objv with
  | none => some []
  | some _ =>
    let properties := nodeProperties node
    if properties.isEmpty then some []
    else do
      let m ← (sortedSchemaValueKeys properties).foldlM
        (fun m name =>
          match List.lookup name properties with
          | some child => collectDefinitionEdgesF fuel child name m
          | none => some m) ([] : EdgeMap)
      if m.isEmpty then pure []
      else pure ((sortStrings (m.map Prod.fst)).filterMap (fun key => List.lookup key m))

/- ### Breadth-first enumeration of definition paths (Go `buildDefinitionPaths`) -/

/-- One BFS queue item (Go `definitionPathState`). -/
structure BfsItem where
  dfn : String
  pfx : String
  depth : Nat

/-- The dedup key `target ++ "\x00" ++ nextPrefix` of Go `buildDefinitionPaths`. -/
def mkSeenKey (target pfx : String) : String := target ++ "\x00" ++ pfx

/-- The inner edge loop of Go `buildDefinitionPaths`: skip edges back to
the root, skip blank prefixes and already-seen `(target, prefix)` pairs,
and record and enqueue the rest. -/
def bfsEdgeFold (root : String) (cur : BfsItem) :
    List DefEdge → List BfsItem → List String → (String → List String) →
    List BfsItem × List String × (String → List String)
  | [], queue, seen, paths => (queue, seen, paths)
  | (path, target) :: rest, queue, seen, paths =>
    if target = root then bfsEdgeFold root cur rest queue seen paths
    else
      let np := appendPath cur.pfx path
      if trimString np = "" then bfsEdgeFold root cur rest queue seen paths
      else
        let key := mkSeenKey target np
        if key ∈ seen then bfsEdgeFold root cur rest queue seen paths
        else
          bfsEdgeFold root cur rest
            (queue ++ [⟨target, np, cur.depth + 1⟩])
            (key :: seen)
            (fun n => if n = target then paths n ++ [np] else paths n)

/-- The BFS work loop of Go `buildDefinitionPaths` (fuelled; the Go loop
terminates because the depth cap bounds the reachable pair set). -/
def bfsLoopF (defs : List (String × SchemaValue)) (root : String) (ef : Nat) :
    Nat → List BfsItem → List String → (String → List String) →
    Option (String → List String)
  | 0, _, _, _ => none
  | _ + 1, [], _, paths => some paths
  | fuel + 1, cur :: rest, seen, paths =>
    if cur.depth ≥ 20 then bfsLoopF defs root ef fuel rest seen paths
    else
      let node := (List.lookup cur.dfn defs).getD zeroSchemaValue
      match definitionEdgesF ef node with
      | none => none
      | some edges =>
        let s := bfsEdgeFold root cur edges rest seen paths
        bfsLoopF defs root ef fuel s.1 s.2.1 s.2.2

/-- Go `buildDefinitionPaths`: all reachable root-relative access paths
for every definition, each list sorted lexicographically.  The Go `nil`
map is modelled as the everywhere-empty path function. -/
def buildDefinitionPathsF (lf ef : Nat) (defs : List (String × SchemaValue))
    (rootDefinition : String) : Option (String → List String) :=
  if trimString rootDefinition = "" then some (fun _ => [])
  else if (List.lookup rootDefinition defs).isNone then some (fun _ => [])
  else
    (bfsLoopF defs rootDefinition ef lf
        [⟨rootDefinition, "", 0⟩]
        [mkSeenKey rootDefinition ""]
        (fun n => if n = rootDefinition then [""] else [])).map
      (fun paths => fun n => sortStrings (paths n))

/-- Go `buildPropertyPaths`: normalized root-relative JSON paths for one
property, deduplicated and sorted. -/
def buildPropertyPaths (basePaths : List String) (propertyName : String)
    (hideRootPath : Bool) : List String :=
  let p := trimString propertyName
  if p = "" then []
  else if basePaths.isEmpty then []
  else
    let candidates := (basePaths.map (fun base => appendPath base p)).filter
      (fun path => !(trimString path = "" || (hideRootPath && path = p)))
    let dedup := candidates.eraseDups
    if dedup.isEmpty then [] else sortStrings dedup

/- ### Example synthesis (Go `exampleBuilder` and friends, part_003).

The builder's mutable `activeRefs map[string]int` is threaded through
every call as explicit state; each Go `defer release()` becomes an
explicit decrement applied to the state returned by the guarded
recursive call.  All mutually recursive functions carry a fuel
parameter (`none` = fuel exhausted; the Go recursion terminates on
every finite document thanks to the cycle guard). -/

/-- Go `ExampleMode` after `normalizeExampleMode`. -/
inductive Mode where
  | all : Mode
  | required : Mode
deriving DecidableEq

/-- The reference-activation multiset (Go `activeRefs map[string]int`). -/
abbrev Active := List (String × Int)

/-- Read a reference count (Go map read, zero for absent). -/
def activeCount (a : Active) (r : String) : Int := (List.lookup r a).getD 0

/-- Write a reference count (Go map write). -/
def activeSet (a : Active) (r : String) (v : Int) : Active :=
  if (List.lookup r a).isSome then a.map (fun p => if p.1 = r then (r, v) else p)
  else a ++ [(r, v)]

/-- The release closure of Go `enterReference`: decrement the count and
delete the entry once it is no longer positive. -/
def releaseRef (a : Active) (r : String) : Active :=
  let a1 := activeSet a r (activeCount a r - 1)
  if activeCount a1 r ≤ 0 then a1.filter (fun p => p.1 ≠ r) else a1

/-- Well-formedness of the activation multiset: Go only ever stores
strictly positive counts (an activation writes 1, a release at 0
deletes the entry). -/
def ActiveOK (a : Active) : Prop := ∀ p ∈ a, 0 < p.2

/-- Result of Go `enterReference`: no-op success (blank ref, nil release),
refusal (reference already active), or activation of the trimmed key. -/
inductive EnterOutcome where
  | noop : EnterOutcome
  | refuse : EnterOutcome
  | activate (key : String) : EnterOutcome

/-- Go `enterReference`: register an active local ref unless it is
already being expanded. -/
def enterReference (a : Active) (ref : String) : EnterOutcome × Active :=
  let r := trimString ref
  if r = "" then (.noop, a)
  else if activeCount a r > 0 then (.refuse, a)
  else (.activate r, activeSet a r (activeCount a r + 1))

/-- Fixed per-call data of the Go `exampleBuilder`: the mode and the raw
decoded document tree (`doc.RawKeywords`), against which local JSON
pointers are resolved. -/
structure Builder where
  mode : Mode
  rawDoc : Obj

/-- Go `decodeJSONPointerToken`: unescape one JSON pointer token,
`~1`→`/` first, then `~0`→`~`, in that fixed order. -/
def decodeJSONPointerToken (token : String) : String :=
  ⟨replaceTilde0 (replaceTilde1 token.data)⟩

/-- Go `resolveJSONPointer` token walk. -/
def resolvePointerTokens : JSON → List String → Option JSON
  | cur, [] => some cur
  | cur, tok :: rest =>
    let t := decodeJSONPointerToken tok
    match cur with
    | .obj fs =>
      match List.lookup t fs with
      | none => none
      | some next => resolvePointerTokens next rest
    | .arr xs =>
      match parseAtoi t with
      | none => none
      | some i =>
        if i < 0 ∨ (xs.length : Int) ≤ i then none
        else resolvePointerTokens (xs.getD i.toNat .null) rest
    | _ => none

/-- Go `resolveJSONPointer`: resolve a `#`-rooted JSON pointer against
the raw document value; any mismatch yields `none` ("not found"). -/
def resolveJSONPointer (root : JSON) (ref : String) : Option JSON :=
  let r := trimString ref
  if r = "#" then some root
  else if !strStarts "#/" r then none
  else resolvePointerTokens root (splitString '/' (dropChars 2 r))

/-- Go `resolveLocalReference`: resolve local pointer refs against the
raw document keywords, converting the hit to a schema value. -/
def resolveLocalReference (B : Builder) (ref : String) : Option SchemaValue :=
  let r := trimString ref
  if r = "" || !strStarts "#" r then none
  else if B.rawDoc.isEmpty then none
  else
    match resolveJSONPointer (.obj B.rawDoc) r with
    | none => none
    | some raw => toSchemaValue (some raw)

/-- Go `stripReferenceKeyword`: shallow copy without the `$ref` keyword. -/
def stripReferenceKeyword (o : Obj) : Obj := o.filter (fun kv => kv.1 ≠ "$ref")

/-- Go `mergeSchemaObjects`: the resolved reference object is the base,
the node's own sibling keywords (except `$ref`) override it key-for-key. -/
def mergeSchemaObjects (base overlay : Obj) : Obj :=
  let ov := overlay.filter (fun kv => kv.1 ≠ "$ref")
  base.map (fun kv =>
      match List.lookup kv.1 ov with
      | some v => (kv.1, v)
      | none => kv)
    ++ ov.filter (fun kv => (List.lookup kv.1 base).isNone)

/-- Outcome of Go `resolvedObjectForReference`: not a ref (`handled=false`),
an unresolved ref degrading to the stripped sibling object, a refused
re-entrant expansion, or a resolved sibling-merged object together with
the activation key to release afterwards (if any). -/
inductive RefOutcome where
  | notRef : RefOutcome
  | degraded (stripped : Obj) : RefOutcome
  | refused : RefOutcome
  | entered (merged : Obj) (rel : Option String) : RefOutcome

/-- Go `resolvedObjectForReference`: resolve a local `$ref` and merge
sibling override keywords, updating the activation state. -/
def resolvedObjectForReferenceS (B : Builder) (a : Active) (o : Obj) :
    RefOutcome × Active :=
  let ref := asString (List.lookup "$ref" o)
  if ref = "" then (.notRef, a)
  else
    match resolveLocalReference B ref with
    | none => (.degraded (stripReferenceKeyword o), a)
    | some sv =>
      match sv.objv with
      | none => (.degraded (stripReferenceKeyword o), a)
      | some resolvedObj =>
        match enterReference a ref with
        | (.refuse, a1) => (.refused, a1)
        | (.noop, a1) => (.entered (mergeSchemaObjects resolvedObj o) none, a1)
        | (.activate k, a1) => (.entered (mergeSchemaObjects resolvedObj o) (some k), a1)

/-- Go `schemaTypeName`: the first non-null type of the `type` keyword. -/
def schemaTypeName (o : Obj) : String :=
  match List.lookup "type" o with
  | none => ""
  | some tv =>
    let text := lowerString (asString (some tv))
    if text ≠ "" then text
    else
      let items := asSlice (some tv)
      match items.find? (fun it =>
          let t := lowerString (asString (some it))
          !(t == "" || t == "null")) with
      | some it => lowerString (asString (some it))
      | none =>
        match items.find? (fun it => lowerString (asString (some it)) == "null") with
        | some _ => "null"
        | none => ""

/-- Go `hasArrayShape`: array structure keywords present. -/
def hasArrayShape (o : Obj) : Bool :=
  (toSchemaValue (List.lookup "items" o)).isSome
    || !(asSlice (List.lookup "prefixItems" o)).isEmpty

/-- Go `explicitExampleValue`: `default`, else first of `examples`,
else `example`. -/
def explicitExampleValue (o : Obj) : Option JSON :=
  match List.lookup "default" o with
  | some v => some v
  | none =>
    match asSlice (List.lookup "examples" o) with
    | v :: _ => some v
    | [] => List.lookup "example" o

/-- Go `constExampleValue`. -/
def constExampleValue (o : Obj) : Option JSON := List.lookup "const" o

/-- Go `enumExampleValue`: first `enum` entry. -/
def enumExampleValue (o : Obj) : Option JSON := (asSlice (List.lookup "enum" o)).head?

/-- Go `exampleScalarPlaceholders` lookup (`scalarPlaceholder`). -/
def scalarPlaceholder (schemaType : String) : Option JSON :=
  if schemaType = "string" then some (.str "<string>")
  else if schemaType = "number" then some (.num 0)
  else if schemaType = "integer" then some (.num 0)
  else if schemaType = "boolean" then some (.bool false)
  else if schemaType = "null" then some .null
  else none

/-- Go `mergePropertySchemas`: merge property maps, keys already present
on the left are never overwritten. -/
def mergePropertySchemas (left right : List (String × SchemaValue)) :
    List (String × SchemaValue) :=
  if left.isEmpty && right.isEmpty then []
  else if left.isEmpty then right
  else left ++ right.filter (fun kv => (List.lookup kv.1 left).isNone)

/-- The seen-set loop of Go `mergeRequiredKeys`. -/
def mergeRequiredAux : List String → List String → List String
  | [], _ => []
  | k :: rest, seen =>
    let key := trimString k
    if key = "" then mergeRequiredAux rest seen
    else if key ∈ seen then mergeRequiredAux rest seen
    else key :: mergeRequiredAux rest (key :: seen)

/-- Go `mergeRequiredKeys`: append unique trimmed required keys,
preserving first-seen order. -/
def mergeRequiredKeys (left right : List String) : List String :=
  if left.isEmpty && right.isEmpty then []
  else mergeRequiredAux (left ++ right) []

/-- The first schema-like branch of `oneOf`, then `anyOf`, then `allOf`
(the iteration order of Go `buildCompositionFallback`). -/
def firstComposition (o : Obj) : Option SchemaValue :=
  ((asSlice (List.lookup "oneOf" o) ++ asSlice (List.lookup "anyOf" o)
      ++ asSlice (List.lookup "allOf" o)).filterMap
    (fun j => toSchemaValue (some j))).head?

mutual

/-- Go `cloneJSONValue` on objects. -/
def cloneObj : List (String × JSON) → List (String × JSON)
  | [] => []
  | (k, v) :: rest => (k, cloneJSONValue v) :: cloneObj rest

/-- Go `cloneJSONValue` on arrays. -/
def cloneArr : List JSON → List JSON
  | [] => []
  | v :: rest => cloneJSONValue v :: cloneArr rest

/-- Go `cloneJSONValue`: deep copy of maps and slices. -/
def cloneJSONValue : JSON → JSON
  | .obj fs => .obj (cloneObj fs)
  | .arr xs => .arr (cloneArr xs)
  | v => v

end

mutual

/-- Go `buildNode`: build the example value for one schema node; boolean
and invalid nodes yield null, references are resolved (with sibling
merge and cycle guard) before recursing. -/
def buildNodeF (B : Builder) : Nat → Active → SchemaValue → Option (JSON × Active)
  | 0, _, _ => none
  | fuel + 1, a, sv =>
    if sv.bval.isSome then some (.null, a)
    else
      match sv.objv with
      | none => some (.null, a)
      | some o =>
        match resolvedObjectForReferenceS B a o with
        | (.notRef, a1) => buildFromObjectF B fuel a1 o
        | (.degraded stripped, a1) => buildNodeF B fuel a1 ⟨none, some stripped⟩
        | (.refused, a1) => some (.null, a1)
        | (.entered merged rel, a1) =>
          (buildNodeF B fuel a1 ⟨none, some merged⟩).map
            (fun va =>
              (va.1, match rel with
                     | some k => releaseRef va.2 k
                     | none => va.2))

/-- Go `buildFromObject`: object shape, then array shape, then the
scalar precedence chain. -/
def buildFromObjectF (B : Builder) : Nat → Active → Obj → Option (JSON × Active)
  | 0, _, _ => none
  | fuel + 1, a, o =>
    let st := schemaTypeName o
    match collectObjectShapeF B fuel a ⟨none, some o⟩ with
    | none => none
    | some (shape, a1) =>
      if st == "object" || !shape.1.isEmpty || !shape.2.isEmpty then
        buildObjectFromShapeF B fuel a1 shape.1 shape.2
      else if st == "array" || hasArrayShape o then
        buildArrayFromObjectF B fuel a1 o
      else
        match explicitExampleValue o with
        | some v => some (cloneJSONValue v, a1)
        | none =>
          match constExampleValue o with
          | some v => some (cloneJSONValue v, a1)
          | none =>
            match enumExampleValue o with
            | some v => some (cloneJSONValue v, a1)
            | none =>
              match buildCompositionFallbackF B fuel a1 o with
              | none => none
              | some (some v, a2) => some (v, a2)
              | some (none, a2) =>
                match scalarPlaceholder st with
                | some v => some (v, a2)
                | none => some (.null, a2)

/-- Go `buildObjectFromShape`: materialize the object value, one
property per ordered key (mode-dependent order). -/
def buildObjectFromShapeF (B : Builder) :
    Nat → Active → List (String × SchemaValue) → List String → Option (JSON × Active)
  | 0, _, _, _ => none
  | fuel + 1, a, props, req =>
    if props.isEmpty then some (.obj [], a)
    else
      let order := if B.mode = .required then requiredPropertyOrder req props
                   else propertyOrder req props
      (order.foldlM
          (fun (acc : Obj × Active) key =>
            (buildNodeF B fuel acc.2 ((List.lookup key props).getD zeroSchemaValue)).map
              (fun (va : JSON × Active) => (acc.1 ++ [(key, va.1)], va.2)))
          (([] : Obj), a)).map
        (fun (p : Obj × Active) => (.obj p.1, p.2))

/-- Go `buildArrayFromObject`: explicit array-valued example data wins,
else `prefixItems`, else a singleton from `items`, else empty. -/
def buildArrayFromObjectF (B : Builder) : Nat → Active → Obj → Option (JSON × Active)
  | 0, _, _ => none
  | fuel + 1, a, o =>
    match explicitExampleValue o with
    | some (.arr xs) => some (.arr (cloneArr xs), a)
    | _ =>
      match constExampleValue o with
      | some (.arr xs) => some (.arr (cloneArr xs), a)
      | _ =>
        match enumExampleValue o with
        | some (.arr xs) => some (.arr (cloneArr xs), a)
        | _ =>
          let pre := asSlice (List.lookup "prefixItems" o)
          if !pre.isEmpty then
            (pre.foldlM
                (fun (acc : List JSON × Active) raw =>
                  match toSchemaValue (some raw) with
                  | none => some (acc.1 ++ [JSON.null], acc.2)
                  | some item =>
                    (buildNodeF B fuel acc.2 item).map
                      (fun (va : JSON × Active) => (acc.1 ++ [va.1], va.2)))
                (([] : List JSON), a)).map
              (fun (p : List JSON × Active) => (.arr p.1, p.2))
          else
            match toSchemaValue (List.lookup "items" o) with
            | some item => (buildNodeF B fuel a item).map (fun va => (.arr [va.1], va.2))
            | none => some (.arr [], a)

/-- Go `collectObjectShape`: merged object properties and required keys
for a node, resolving references first. -/
def collectObjectShapeF (B : Builder) :
    Nat → Active → SchemaValue → Option ((List (String × SchemaValue) × List String) × Active)
  | 0, _, _ => none
  | fuel + 1, a, sv =>
    match sv.objv with
    | none => some (([], []), a)
    | some o =>
      match resolvedObjectForReferenceS B a o with
      | (.notRef, a1) => collectObjectShapeFromObjectF B fuel a1 o
      | (.degraded stripped, a1) => collectObjectShapeF B fuel a1 ⟨none, some stripped⟩
      | (.refused, a1) => some (([], []), a1)
      | (.entered merged rel, a1) =>
        (collectObjectShapeF B fuel a1 ⟨none, some merged⟩).map
          (fun ra =>
            (ra.1, match rel with
                   | some k => releaseRef ra.2 k
                   | none => ra.2))

/-- Go `collectObjectShapeFromObject`: local properties and required
keys, then each `allOf` overlay merged in (first seen wins). -/
def collectObjectShapeFromObjectF (B : Builder) :
    Nat → Active → Obj → Option ((List (String × SchemaValue) × List String) × Active)
  | 0, _, _ => none
  | fuel + 1, a, o =>
    (asSlice (List.lookup "allOf" o)).foldlM
      (fun (acc : (List (String × SchemaValue) × List String) × Active) raw =>
        match toSchemaValue (some raw) with
        | none => some acc
        | some sv =>
          (collectObjectShapeF B fuel acc.2 sv).map
            (fun ra =>
              ((mergePropertySchemas acc.1.1 ra.1.1,
                mergeRequiredKeys acc.1.2 ra.1.2), ra.2)))
      ((mapSchemaValues (List.lookup "properties" o),
        asStringSlice (List.lookup "required" o)), a)

/-- Go `buildCompositionFallback`: recursively synthesize the first
usable branch of `oneOf`/`anyOf`/`allOf`; `(none, a)` models Go's
`(nil, false)` "no branch found". -/
def buildCompositionFallbackF (B : Builder) : Nat → Active → Obj → Option (Option JSON × Active)
  | 0, _, _ => none
  | fuel + 1, a, o =>
    match firstComposition o with
    | none => some (none, a)
    | some sv => (buildNodeF B fuel a sv).map (fun va => (some va.1, va.2))

end

/-- Go `schemaKeyComment` helper `normalizeYAMLComment`: strip blank
leading/trailing lines, drop blank interior lines, re-join. -/
def normalizeYAMLComment (comment : String) : String :=
  let lines := splitString '\n' comment
  let core := ((lines.dropWhile (fun l => trimString l == "")).reverse.dropWhile
      (fun l => trimString l == "")).reverse
  if core.isEmpty then ""
  else
    let normalized := core.filter (fun l => !(trimString l == ""))
    if normalized.isEmpty then ""
    else String.intercalate "\n" normalized

/-- Go `schemaKeyComment`: YAML key comment built from schema `title`
and `description`. -/
def schemaKeyComment (schema : SchemaValue) : String :=
  match schema.objv with
  | none => ""
  | some o =>
    let title := trimString (asString (List.lookup "title" o))
    let description := trimString (asString (List.lookup "description" o))
    if title = "" && description = "" then ""
    else if title = "" then normalizeYAMLComment description
    else if description = "" then normalizeYAMLComment title
    else if title = description then normalizeYAMLComment title
    else normalizeYAMLComment (title ++ "\n" ++ description)

/- ### Declarative reference definitions (written from the spec text,
to be compared with the source embeddings) -/

/-- First-seen deduplication with an explicit seen accumulator. -/
def dedupFirstAux : List String → List String → List String
  | [], _ => []
  | x :: xs, seen =>
    if x ∈ seen then dedupFirstAux xs seen
    else x :: dedupFirstAux xs (x :: seen)

/-- De-duplicate a list of names preserving first-seen order. -/
def dedupFirst (l : List String) : List String := dedupFirstAux l []

/-- Modelled from the spec (§4.6 step 3): the scalar/untyped synthesis
precedence written from the claim's words — explicit value (`default`,
else first of `examples`, else `example`), then `const`, then the first
`enum` entry, then the recursively synthesized first usable branch of
`oneOf`, then `anyOf`, then `allOf`, then the type-keyed scalar
placeholder, then null. -/
def specScalarChain (B : Builder) (fuel : Nat) (a : Active) (o : Obj) :
    Option (JSON × Active) :=
  match explicitExampleValue o with
  | some v => some (cloneJSONValue v, a)
  | none =>
    match constExampleValue o with
    | some v => some (cloneJSONValue v, a)
    | none =>
      match enumExampleValue o with
      | some v => some (cloneJSONValue v, a)
      | none =>
        match firstComposition o with
        | some sv => buildNodeF B fuel a sv
        | none =>
          match scalarPlaceholder (schemaTypeName o) with
          | some v => some (v, a)
          | none => some (.null, a)

/- ### Concrete fixtures -/

/-- A local `$ref` node pointing at definition `name`. -/
def refTo (name : String) : JSON := .obj [("$ref", .str ("#/$defs/" ++ name))]

/-- C1 scenario, from the source test fixture: `Config` with a `spec`
reference, reused `BuildSettings` reachable both directly and through an
`additionalProperties`-keyed map of `ProjectConfig`. -/
def svC1Config : SchemaValue :=
  ⟨none, some [("type", .str "object"), ("properties", .obj [("spec", refTo "BuildSpec")])]⟩

/-- C1 scenario: the `BuildSpec` definition. -/
def svC1BuildSpec : SchemaValue :=
  ⟨none, some [("type", .str "object"),
    ("properties", .obj [
      ("projects", .obj [("type", .str "object"),
        ("additionalProperties", refTo "ProjectConfig")]),
      ("settings", refTo "BuildSettings")])]⟩

/-- C1 scenario: the `ProjectConfig` definition. -/
def svC1ProjectConfig : SchemaValue :=
  ⟨none, some [("type", .str "object"), ("properties", .obj [("settings", refTo "BuildSettings")])]⟩

/-- C1 scenario: the `BuildSettings` definition. -/
def svC1BuildSettings : SchemaValue :=
  ⟨none, some [("type", .str "object"), ("properties", .obj [("sign", refTo "SignOptions")])]⟩

/-- C1 scenario: the `SignOptions` definition. -/
def svC1SignOptions : SchemaValue :=
  ⟨none, some [("type", .str "object"),
    ("properties", .obj [("enabled", .obj [("type", .str "boolean")])])]⟩

/-- C1 scenario: the definitions map. -/
def defsC1 : List (String × SchemaValue) :=
  [("Config", svC1Config), ("BuildSpec", svC1BuildSpec), ("ProjectConfig", svC1ProjectConfig),
   ("BuildSettings", svC1BuildSettings), ("SignOptions", svC1SignOptions)]

/-- C2 fixture: a definition `A` that references itself directly through
a property. -/
def objSelfDirect : Obj :=
  [("type", .str "object"), ("properties", .obj [("self", refTo "A")])]

/-- C2 fixture: the raw document whose root references `A`. -/
def docSelfDirect : Obj :=
  [("$ref", .str "#/$defs/A"), ("$defs", .obj [("A", .obj objSelfDirect)])]

/-- C2 fixture: builder over the direct self-reference document. -/
def bldSelfDirect : Builder := ⟨Mode.all, docSelfDirect⟩

/-- C2 fixture: a definition `A` that references itself via `allOf`. -/
def objSelfAllOf : Obj :=
  [("type", .str "object"),
   ("properties", .obj [("x", .obj [("type", .str "string")])]),
   ("allOf", .arr [refTo "A"])]

/-- C2 fixture: the raw document whose root references the `allOf`-cyclic `A`. -/
def docSelfAllOf : Obj :=
  [("$ref", .str "#/$defs/A"), ("$defs", .obj [("A", .obj objSelfAllOf)])]

/-- C2 fixture: builder over the `allOf` self-reference document. -/
def bldSelfAllOf : Builder := ⟨Mode.all, docSelfAllOf⟩

/-- C2 fixture: `A` reaching a non-root definition `B` that references
itself, so the graph walk is cut only by the depth cap. -/
def svDeepA : SchemaValue :=
  ⟨none, some [("type", .str "object"), ("properties", .obj [("b", refTo "B")])]⟩

/-- C2 fixture: the self-referential non-root definition `B`. -/
def svDeepB : SchemaValue :=
  ⟨none, some [("type", .str "object"), ("properties", .obj [("b2", refTo "B")])]⟩

/-- C4 witness fixture: a document whose `$defs` holds no entries, so
`#/$defs/Missing` dangles. -/
def bldDangling : Builder := ⟨Mode.all, [("$defs", .obj [])]⟩

/-- C6/C10 witness fixture: a builder over an empty raw document. -/
def bldPlain : Builder := ⟨Mode.all, []⟩

/- ### Structural size measures (verification apparatus only: these
embed no source function; they serve as termination measures in the
fuel-adequacy proofs below) -/

mutual

/-- Structural size of a JSON value (proof-internal measure). -/
def jsonSize : JSON → Nat
  | .null => 1
  | .bool _ => 1
  | .num _ => 1
  | .str _ => 1
  | .arr xs => 1 + jsonListSize xs
  | .obj kvs => 1 + jsonObjSize kvs

/-- Structural size of a JSON array body (proof-internal measure). -/
def jsonListSize : List JSON → Nat
  | [] => 0
  | v :: rest => 1 + jsonSize v + jsonListSize rest

/-- Structural size of a JSON object body (proof-internal measure). -/
def jsonObjSize : List (String × JSON) → Nat
  | [] => 0
  | kv :: rest => 1 + jsonSize kv.2 + jsonObjSize rest

end

/-- Fuel demand of a schema value for the edge collector (proof-internal). -/
def svSize (sv : SchemaValue) : Nat :=
  match sv.objv with
  | none => 1
  | some o => 2 * jsonObjSize o + 2

/-- Fuel demand of a raw keyword slot for the edge collector (proof-internal). -/
def rawSize : Option JSON → Nat
  | none => 1
  | some v => 2 * jsonSize v + 1

/- ### Shared lemmas: the executable string order agrees with `≤`,
and `sortStrings` is a sorting function -/

theorem ltChars_iff_lex : ∀ as bs : List Char, ltChars as bs = true ↔ List.Lex (· < ·) as bs := by
  intro as
  induction as with
  | nil =>
    intro bs
    cases bs with
    | nil =>
      simp only [ltChars, Bool.false_eq_true, false_iff]
      exact List.Lex.not_nil_right _ _
    | cons b bs =>
      simp only [ltChars, true_iff]
      exact List.Lex.nil
  | cons a as ih =>
    intro bs
    cases bs with
    | nil =>
      simp only [ltChars, Bool.false_eq_true, false_iff]
      exact List.Lex.not_nil_right _ _
    | cons b bs =>
      simp only [ltChars]
      by_cases hab : a < b
      · simp only [hab, if_true, true_iff]
        exact List.Lex.rel hab
      · by_cases hba : b < a
        · simp only [hab, if_false, hba, if_true, Bool.false_eq_true, false_iff]
          intro h
          cases h with
          | rel h => exact hab h
          | cons h => exact absurd hba (lt_irrefl a)
        · have hei : a = b := le_antisymm (not_lt.mp hba) (not_lt.mp hab)
          subst hei
          simp only [hab, hba, if_false, ih bs]
          constructor
          · intro h
            exact List.Lex.cons h
          · intro h
            cases h with
            | rel h => exact absurd h hab
            | cons h => exact h

theorem leStr_le {a b : String} (h : leStr a b = true) : a ≤ b := by
  rw [String.le_iff_toList_le]
  have hnot : ¬ List.Lex (· < ·) b.data a.data := by
    intro hlex
    rw [← ltChars_iff_lex] at hlex
    simp [leStr, hlex] at h
  have hnlt : ¬ (b.toList < a.toList) := hnot
  exact not_lt.mp hnlt

theorem le_leStr {a b : String} (h : a ≤ b) : leStr a b = true := by
  by_contra hne
  have hlt : ltChars b.data a.data = true := by
    simpa [leStr] using hne
  have hlex : List.Lex (· < ·) b.data a.data := (ltChars_iff_lex _ _).mp hlt
  have hl : b.toList < a.toList := hlex
  have hs : b < a := String.lt_iff_toList_lt.mpr hl
  exact absurd h (not_le.mpr hs)

theorem leStr_iff (a b : String) : leStr a b = true ↔ a ≤ b := ⟨leStr_le, le_leStr⟩

theorem leStr_total (a b : String) : leStr a b = true ∨ leStr b a = true := by
  rcases le_total a b with h | h
  · exact Or.inl (le_leStr h)
  · exact Or.inr (le_leStr h)

theorem insortStr_perm (x : String) : ∀ l : List String, List.Perm (insortStr x l) (x :: l) := by
  intro l
  induction l with
  | nil => simp [insortStr]
  | cons y ys ih =>
    by_cases h : leStr x y
    · simp [insortStr, h]
    · simp only [insortStr, h, if_false, Bool.false_eq_true]
      exact (ih.cons y).trans (List.Perm.swap x y ys)

theorem sortStrings_perm : ∀ l : List String, List.Perm (sortStrings l) l := by
  intro l
  induction l with
  | nil => simp [sortStrings]
  | cons x xs ih =>
    exact (insortStr_perm x (sortStrings xs)).trans (ih.cons x)

theorem mem_sortStrings {a : String} {l : List String} : a ∈ sortStrings l ↔ a ∈ l :=
  (sortStrings_perm l).mem_iff

theorem sorted_insortStr (x : String) :
    ∀ l : List String, List.Sorted (· ≤ ·) l → List.Sorted (· ≤ ·) (insortStr x l) := by
  intro l
  induction l with
  | nil =>
    intro _
    simp [insortStr]
  | cons y ys ih =>
    intro hs
    rw [List.sorted_cons] at hs
    by_cases h : leStr x y
    · simp only [insortStr, h, if_true]
      rw [List.sorted_cons]
      refine ⟨?_, ?_⟩
      · intro b hb
        rcases List.mem_cons.mp hb with hb | hb
        · exact hb ▸ leStr_le h
        · exact le_trans (leStr_le h) (hs.1 b hb)
      · rw [List.sorted_cons]
        exact hs
    · simp only [insortStr, h, if_false, Bool.false_eq_true]
      rw [List.sorted_cons]
      refine ⟨?_, ih hs.2⟩
      intro b hb
      have hmem : b ∈ x :: ys := (insortStr_perm x ys).mem_iff.mp hb
      rcases List.mem_cons.mp hmem with hb1 | hb1
      · rcases leStr_total x y with ht | ht
        · exact absurd ht h
        · exact hb1.symm ▸ leStr_le ht
      · exact hs.1 b hb1

theorem sorted_sortStrings : ∀ l : List String, List.Sorted (· ≤ ·) (sortStrings l) := by
  intro l
  induction l with
  | nil => simp [sortStrings]
  | cons x xs ih => exact sorted_insortStr x (sortStrings xs) ih

theorem nodup_sortStrings {l : List String} (h : l.Nodup) : (sortStrings l).Nodup :=
  (sortStrings_perm l).nodup_iff.mpr h

/- ### Association list and dedup lemmas -/

theorem lookup_isSome_iff {β : Type} (k : String) :
    ∀ l : List (String × β), (List.lookup k l).isSome ↔ k ∈ l.map Prod.fst := by
  intro l
  induction l with
  | nil => simp [List.lookup]
  | cons p rest ih =>
    obtain ⟨a, b⟩ := p
    by_cases h : k = a
    · subst h
      simp [List.lookup]
    · have hba : (k == a) = false := beq_eq_false_iff_ne.mpr h
      simp [List.lookup, hba, ih, h]

/- ### C7: property ordering -/

theorem requiredLoop_out (props : List (String × SchemaValue)) :
    ∀ (required seen : List String),
      (requiredLoop props required seen).1 =
        dedupFirstAux (required.filter (fun n => n ∈ props.map Prod.fst)) seen := by
  intro required
  induction required with
  | nil =>
    intro seen
    simp [requiredLoop, dedupFirstAux]
  | cons name rest ih =>
    intro seen
    cases hcase : List.lookup name props with
    | none =>
      have hmem : name ∉ props.map Prod.fst := by
        rw [← lookup_isSome_iff, hcase]
        simp
      simp [requiredLoop, hcase, List.filter_cons, hmem, ih]
    | some v =>
      have hmem : name ∈ props.map Prod.fst := by
        rw [← lookup_isSome_iff, hcase]
        simp
      by_cases hseen : name ∈ seen
      · simp [requiredLoop, hcase, hseen, List.filter_cons, hmem, dedupFirstAux, ih]
      · simp [requiredLoop, hcase, hseen, List.filter_cons, hmem, dedupFirstAux, ih]

theorem requiredLoop_seen (props : List (String × SchemaValue)) :
    ∀ (required seen : List String) (n : String),
      n ∈ (requiredLoop props required seen).2 ↔
        n ∈ seen ∨ (n ∈ required ∧ n ∈ props.map Prod.fst) := by
  intro required
  induction required with
  | nil =>
    intro seen n
    simp [requiredLoop]
  | cons name rest ih =>
    intro seen n
    cases hcase : List.lookup name props with
    | none =>
      have hmem : name ∉ props.map Prod.fst := by
        rw [← lookup_isSome_iff, hcase]
        simp
      simp only [requiredLoop, hcase, Option.isNone_none, if_true, ih, List.mem_cons]
      constructor
      · rintro (hs | ⟨hr, hk⟩)
        · exact Or.inl hs
        · exact Or.inr ⟨Or.inr hr, hk⟩
      · rintro (hs | ⟨hr | hr, hk⟩)
        · exact Or.inl hs
        · exact absurd (hr ▸ hk) hmem
        · exact Or.inr ⟨hr, hk⟩
    | some v =>
      have hmem : name ∈ props.map Prod.fst := by
        rw [← lookup_isSome_iff, hcase]
        simp
      by_cases hseen : name ∈ seen
      · simp only [requiredLoop, hcase, Option.isNone_some, Bool.false_eq_true, if_false,
          hseen, if_true, ih, List.mem_cons]
        constructor
        · rintro (hs | ⟨hr, hk⟩)
          · exact Or.inl hs
          · exact Or.inr ⟨Or.inr hr, hk⟩
        · rintro (hs | ⟨hr | hr, hk⟩)
          · exact Or.inl hs
          · exact Or.inl (hr ▸ hseen)
          · exact Or.inr ⟨hr, hk⟩
      · simp only [requiredLoop, hcase, Option.isNone_some, Bool.false_eq_true, if_false,
          hseen, if_false, ih, List.mem_cons]
        constructor
        · rintro (hs | ⟨hr, hk⟩)
          · rcases hs with hs | hs
            · exact Or.inr ⟨Or.inl hs, hs ▸ hmem⟩
            · exact Or.inl hs
          · exact Or.inr ⟨Or.inr hr, hk⟩
        · rintro (hs | ⟨hr | hr, hk⟩)
          · exact Or.inl (Or.inr hs)
          · exact Or.inl (Or.inl hr)
          · exact Or.inr ⟨hr, hk⟩

/-- C7: for every required list `R` and property map `P`, `propertyOrder`
yields exactly the names of `R` that are keys of `P`, in `R`'s order with
duplicates removed, followed by the keys of `P` not in `R` sorted
lexicographically (`sortStrings` being a genuine sort: sorted output,
permutation of its input). -/
theorem c7_property_order :
    (∀ (required : List String) (properties : List (String × SchemaValue)),
        propertyOrder required properties =
          dedupFirst (required.filter (fun n => n ∈ properties.map Prod.fst)) ++
            sortStrings ((properties.map Prod.fst).filter (fun n => n ∉ required)))
      ∧ (∀ l : List String,
          List.Sorted (· ≤ ·) (sortStrings l) ∧ List.Perm (sortStrings l) l) := by
  constructor
  · intro required properties
    by_cases hp : properties.isEmpty
    · have hpe : properties = [] := List.isEmpty_iff.mp hp
      subst hpe
      simp only [propertyOrder, List.isEmpty_nil, if_true, dedupFirst]
      have h1 : required.filter (fun n => decide (n ∈ ([] : List (String × SchemaValue)).map Prod.fst)) = [] := by
        simp
      simp [h1, dedupFirstAux, sortStrings]
    · simp only [propertyOrder, hp, Bool.false_eq_true, if_false]
      have h1 := requiredLoop_out properties required []
      have h2 : ((properties.map Prod.fst).filter
          (fun n => n ∉ (requiredLoop properties required []).2)) =
          ((properties.map Prod.fst).filter (fun n => n ∉ required)) := by
        apply List.filter_congr
        intro x hx
        apply decide_eq_decide.mpr
        rw [requiredLoop_seen properties required [] x]
        simp only [List.not_mem_nil, false_or]
        constructor
        · intro hnot hr
          exact hnot ⟨hr, hx⟩
        · intro hnot hand
          exact hnot hand.1
      rw [h2, h1]
      rfl
  · intro l
    exact ⟨sorted_sortStrings l, sortStrings_perm l⟩

/- ### C8: definition rendering order -/

theorem filter_ne_of_not_mem {k : String} :
    ∀ l : List String, k ∉ l → l.filter (fun n => n ≠ k) = l := by
  intro l
  induction l with
  | nil => intro _; rfl
  | cons x xs ih =>
    intro h
    have hx : x ≠ k := fun he => h (he ▸ List.mem_cons_self x xs)
    have hxs : k ∉ xs := fun hm => h (List.mem_cons_of_mem x hm)
    rw [List.filter_cons, if_pos (by simp [hx]), ih hxs]

/-- C8 counterexample: with definitions `Alpha` and `Config` and a root
`$ref` naming the absent definition `Missing`, the order is plainly
lexicographic — the present definition literally named `Config` is *not*
promoted to the front, contradicting the claimed fallback chain. -/
theorem c8_counterexample :
    definitionOrder [("Alpha", zeroSchemaValue), ("Config", zeroSchemaValue)]
        (rootDefinitionName "#/$defs/Missing") = ["Alpha", "Config"]
      ∧ (["Alpha", "Config"] : List String) ≠ ["Config", "Alpha"] := by
  constructor
  · rfl
  · decide

/-- C8 (amended): the root definition is placed first when the name
resolved from the root's `$ref` exists among the definitions; when no
name can be extracted from the `$ref`, a definition literally named
`Config` is promoted if present, else the lexicographically first name;
but when the `$ref` names an absent definition no name is promoted and
the order is purely lexicographic.  All remaining names always follow in
lexicographic order. -/
theorem c8_definition_order_amended :
    ∀ (defs : List (String × SchemaValue)) (rootName : String),
      (defs.map Prod.fst).Nodup →
        ((trimString rootName ≠ "" → (List.lookup (trimString rootName) defs).isSome →
            definitionOrder defs rootName =
              trimString rootName ::
                (sortStrings (defs.map Prod.fst)).filter (fun n => n ≠ trimString rootName))
          ∧ (trimString rootName ≠ "" → (List.lookup (trimString rootName) defs).isNone →
              definitionOrder defs rootName = sortStrings (defs.map Prod.fst))
          ∧ (trimString rootName = "" → (List.lookup "Config" defs).isSome →
              definitionOrder defs rootName =
                "Config" :: (sortStrings (defs.map Prod.fst)).filter (fun n => n ≠ "Config"))
          ∧ (trimString rootName = "" → (List.lookup "Config" defs).isNone → defs ≠ [] →
              definitionOrder defs rootName = sortStrings (defs.map Prod.fst)))
        ∧ rootDefinitionName "#/$defs/Config" = "Config"
        ∧ rootDefinitionName "#/definitions/Config" = "Config"
        ∧ rootDefinitionName "#anchor" = "" := by
  intro defs rootName hnodup
  refine ⟨⟨?_, ?_, ?_, ?_⟩, rfl, rfl, rfl⟩
  · intro hr hsome
    have hmemf : trimString rootName ∈ defs.map Prod.fst :=
      (lookup_isSome_iff _ defs).mp hsome
    have hmemk : trimString rootName ∈ sortStrings (defs.map Prod.fst) :=
      mem_sortStrings.mpr hmemf
    have hie : ¬ ((sortStrings (defs.map Prod.fst)).isEmpty = true) := by
      intro he
      rw [List.isEmpty_iff.mp he] at hmemk
      exact List.not_mem_nil _ hmemk
    have hnn : ¬ ((List.lookup (trimString rootName) defs).isNone = true) := by
      rw [Option.isNone_iff_eq_none]
      intro hcontra
      rw [hcontra] at hsome
      simp at hsome
    simp only [definitionOrder]
    rw [if_neg hr, if_neg hie, if_neg hnn]
  · intro hr hnone
    by_cases hie : (sortStrings (defs.map Prod.fst)).isEmpty = true
    · simp only [definitionOrder]
      rw [if_pos hie, List.isEmpty_iff.mp hie]
    · simp only [definitionOrder]
      rw [if_neg hr, if_neg hie, if_pos hnone]
  · intro hr hsome
    have hmemf : "Config" ∈ defs.map Prod.fst := (lookup_isSome_iff _ defs).mp hsome
    have hmemk : "Config" ∈ sortStrings (defs.map Prod.fst) := mem_sortStrings.mpr hmemf
    have hie : ¬ ((sortStrings (defs.map Prod.fst)).isEmpty = true) := by
      intro he
      rw [List.isEmpty_iff.mp he] at hmemk
      exact List.not_mem_nil _ hmemk
    have hnn : ¬ ((List.lookup "Config" defs).isNone = true) := by
      rw [Option.isNone_iff_eq_none]
      intro hcontra
      rw [hcontra] at hsome
      simp at hsome
    simp only [definitionOrder]
    rw [if_pos hr, if_pos hsome, if_neg hie, if_neg hnn]
  · intro hr hnone hdefs
    have hmaps : defs.map Prod.fst ≠ [] := by
      intro he
      exact hdefs (List.map_eq_nil_iff.mp he)
    have hne : sortStrings (defs.map Prod.fst) ≠ [] := by
      intro he
      have hlen := (sortStrings_perm (defs.map Prod.fst)).length_eq
      rw [he] at hlen
      simp only [List.length_nil] at hlen
      exact hmaps (List.length_eq_zero.mp hlen.symm)
    obtain ⟨k0, krest, hk⟩ := List.exists_cons_of_ne_nil hne
    have hie : ¬ ((sortStrings (defs.map Prod.fst)).isEmpty = true) := by
      rw [hk]
      simp
    have hnodupk : (sortStrings (defs.map Prod.fst)).Nodup := nodup_sortStrings hnodup
    have hk0mem : k0 ∈ defs.map Prod.fst := by
      apply mem_sortStrings.mp
      rw [hk]
      exact List.mem_cons_self k0 krest
    have hk0some : (List.lookup k0 defs).isSome := (lookup_isSome_iff _ defs).mpr hk0mem
    have hknot : k0 ∉ krest := by
      rw [hk] at hnodupk
      exact (List.nodup_cons.mp hnodupk).1
    have hfalse : ¬ ((List.lookup "Config" defs).isSome = true) := by
      rw [Option.isNone_iff_eq_none] at hnone
      rw [hnone]
      simp
    have hnn : ¬ ((List.lookup k0 defs).isNone = true) := by
      rw [Option.isNone_iff_eq_none]
      intro hcontra
      rw [hcontra] at hk0some
      simp at hk0some
    simp only [definitionOrder]
    rw [if_pos hr, if_neg hfalse, if_neg hie, hk]
    have hheadD : (k0 :: krest).headD "" = k0 := rfl
    rw [hheadD, if_neg hnn, List.filter_cons, if_neg (by simp)]
    rw [filter_ne_of_not_mem krest hknot]

/-- C8 witness: the amended ordering theorem applied to a concrete
two-definition document whose root `$ref` names `Config`. -/
theorem c8_amended_witness :
    definitionOrder [("Config", zeroSchemaValue), ("Alpha", zeroSchemaValue)] "Config" =
      ["Config", "Alpha"] := by
  have h := ((c8_definition_order_amended
      [("Config", zeroSchemaValue), ("Alpha", zeroSchemaValue)] "Config"
      (by decide)).1).1 (by decide) (by decide)
  rw [h]
  rfl

/- ### C9: the pointer gate of `resolveJSONPointer` -/

/-- C9 counterexample: the reference `" #"` is neither exactly `"#"` nor
prefixed by `"#/"`, yet `resolveJSONPointer` trims it and resolves it to
the whole document rather than reporting not-found. -/
theorem c9_counterexample :
    resolveJSONPointer (.num 7) " #" = some (.num 7)
      ∧ (" #" : String) ≠ "#"
      ∧ strStarts "#/" " #" = false := by
  refine ⟨rfl, by decide, by decide⟩

/-- C9 (amended): `resolveJSONPointer` returns not-found for every
reference string whose *trimmed* form is neither exactly `"#"` nor
prefixed by `"#/"`; in particular anchor-style references such as
`"#name"`, although they begin with `"#"`, are never resolved. -/
theorem c9_pointer_gate_amended :
    (∀ (root : JSON) (ref : String),
        trimString ref ≠ "#" → strStarts "#/" (trimString ref) = false →
        resolveJSONPointer root ref = none)
      ∧ (∀ root : JSON, resolveJSONPointer root "#name" = none) := by
  constructor
  · intro root ref h1 h2
    simp only [resolveJSONPointer]
    rw [if_neg h1, if_pos (by rw [h2]; rfl)]
  · intro root
    rfl

/-- C9 witness: the amended gate applied at the anchor-style input `"#x"`. -/
theorem c9_amended_witness : resolveJSONPointer (.num 1) "#x" = none :=
  c9_pointer_gate_amended.1 (.num 1) "#x" (by decide) (by decide)

/- ### C4: unresolved references degrade locally -/

/-- C4: pointer mismatches (a missing object key, an unparseable or
out-of-range array index, a pointer descending through a scalar) all
report not-found, and a node whose `$ref` fails to resolve degrades to a
null synthesis result with the activation state untouched — the
embedding of the synthesizer is a total function into values, so no
error is ever produced for such nodes. -/
theorem c4_unresolved_ref_degrades :
    (∀ (fs : List (String × JSON)) (tok : String) (rest : List String),
        List.lookup (decodeJSONPointerToken tok) fs = none →
        resolvePointerTokens (.obj fs) (tok :: rest) = none)
      ∧ (∀ (xs : List JSON) (tok : String) (rest : List String),
          (match parseAtoi (decodeJSONPointerToken tok) with
            | none => True
            | some i => i < 0 ∨ (xs.length : Int) ≤ i) →
          resolvePointerTokens (.arr xs) (tok :: rest) = none)
      ∧ (∀ (tok : String) (rest : List String) (s : String) (b : Bool) (n : Int),
          resolvePointerTokens (.str s) (tok :: rest) = none
            ∧ resolvePointerTokens .null (tok :: rest) = none
            ∧ resolvePointerTokens (.bool b) (tok :: rest) = none
            ∧ resolvePointerTokens (.num n) (tok :: rest) = none)
      ∧ (∀ (B : Builder) (fuel : Nat) (a : Active) (ref : String),
          ref ≠ "" →
          resolveLocalReference B ref = none →
          buildNodeF B (fuel + 5) a ⟨none, some [("$ref", .str ref)]⟩ = some (.null, a)) := by
  refine ⟨?_, ?_, ?_, ?_⟩
  · intro fs tok rest h
    simp only [resolvePointerTokens, h]
  · intro xs tok rest h
    simp only [resolvePointerTokens]
    cases hp : parseAtoi (decodeJSONPointerToken tok) with
    | none => rfl
    | some i =>
      rw [hp] at h
      have h2 : i < 0 ∨ (xs.length : Int) ≤ i := h
      show (if i < 0 ∨ (xs.length : Int) ≤ i then none
            else resolvePointerTokens (xs.getD i.toNat JSON.null) rest) = none
      rw [if_pos h2]
  · intro tok rest s b n
    exact ⟨rfl, rfl, rfl, rfl⟩
  · intro B fuel a ref href hres
    have hlook : asString (List.lookup "$ref" [("$ref", JSON.str ref)]) = ref := rfl
    have h1 : resolvedObjectForReferenceS B a [("$ref", JSON.str ref)] = (.degraded [], a) := by
      simp only [resolvedObjectForReferenceS, hlook]
      rw [if_neg href, hres]
      rfl
    show buildNodeF B (fuel + 4 + 1) a ⟨none, some [("$ref", JSON.str ref)]⟩ = some (.null, a)
    rw [buildNodeF]
    simp only [Option.isSome_none, Bool.false_eq_true, if_false, h1]
    exact (rfl : buildNodeF B (fuel + 4) a ⟨none, some []⟩ = some (.null, a))

/-- C4 witness: each mismatch case and the degrading synthesis applied
at concrete inputs (the dangling reference `#/$defs/Missing` over a
document with an empty `$defs`). -/
theorem c4_witness :
    resolvePointerTokens (.obj []) ["x"] = none
      ∧ resolvePointerTokens (.arr []) ["0"] = none
      ∧ resolvePointerTokens (.str "s") ["x"] = none
      ∧ buildNodeF bldDangling 5 [] ⟨none, some [("$ref", .str "#/$defs/Missing")]⟩ =
          some (.null, []) := by
  refine ⟨c4_unresolved_ref_degrades.1 [] "x" [] rfl,
    c4_unresolved_ref_degrades.2.1 [] "0" [] (Or.inr (by decide)),
    (c4_unresolved_ref_degrades.2.2.1 "x" [] "s" false 0).1,
    c4_unresolved_ref_degrades.2.2.2 bldDangling 0 [] "#/$defs/Missing" (by decide) rfl⟩

/- ### C5: YAML key comments from title and description -/

theorem filter_dropWhile_not (p : String → Bool) :
    ∀ l : List String, (l.dropWhile p).filter (fun x => !(p x)) = l.filter (fun x => !(p x)) := by
  intro l
  induction l with
  | nil => rfl
  | cons x xs ih =>
    cases hp : p x with
    | true => simp [List.dropWhile_cons, List.filter_cons, hp, ih]
    | false => simp [List.dropWhile_cons, List.filter_cons, hp]

theorem filter_trimEnds_not (p : String → Bool) (l : List String) :
    (((l.dropWhile p).reverse.dropWhile p).reverse).filter (fun x => !(p x)) =
      l.filter (fun x => !(p x)) := by
  rw [List.filter_reverse, filter_dropWhile_not, List.filter_reverse, List.reverse_reverse,
    filter_dropWhile_not]

theorem normalizeYAMLComment_eq_filter (s : String) :
    normalizeYAMLComment s =
      String.intercalate "\n"
        ((splitString '\n' s).filter (fun l => !(trimString l == ""))) := by
  simp only [normalizeYAMLComment]
  have hchain := filter_trimEnds_not (fun l => trimString l == "") (splitString '\n' s)
  by_cases hcore : ((((splitString '\n' s).dropWhile (fun l => trimString l == "")).reverse.dropWhile
      (fun l => trimString l == "")).reverse).isEmpty
  · rw [if_pos hcore]
    have hc : (((splitString '\n' s).dropWhile (fun l => trimString l == "")).reverse.dropWhile
        (fun l => trimString l == "")).reverse = [] := List.isEmpty_iff.mp hcore
    rw [hc] at hchain
    simp only [List.filter_nil] at hchain
    rw [← hchain]
    rfl
  · rw [if_neg hcore, hchain]
    by_cases hnorm : ((splitString '\n' s).filter (fun l => !(trimString l == ""))).isEmpty
    · rw [if_pos hnorm, List.isEmpty_iff.mp hnorm]
      rfl
    · rw [if_neg hnorm]

theorem splitOnChar_not_mem {sep : Char} :
    ∀ cs : List Char, sep ∉ cs → splitOnChar sep cs = [cs] := by
  intro cs
  induction cs with
  | nil => intro _; rfl
  | cons c rest ih =>
    intro h
    have hc : ¬ (c = sep) := fun he => h (he ▸ List.mem_cons_self c rest)
    have hrest : sep ∉ rest := fun hm => h (List.mem_cons_of_mem c hm)
    simp only [splitOnChar, ih hrest, if_neg hc]

theorem splitOnChar_append {sep : Char} :
    ∀ (as bs : List Char), sep ∉ as →
      splitOnChar sep (as ++ sep :: bs) = as :: splitOnChar sep bs := by
  intro as
  induction as with
  | nil =>
    intro bs _
    simp [splitOnChar]
  | cons a rest ih =>
    intro bs h
    have ha : ¬ (a = sep) := fun he => h (he ▸ List.mem_cons_self a rest)
    have hrest : sep ∉ rest := fun hm => h (List.mem_cons_of_mem a hm)
    simp only [List.cons_append, splitOnChar, if_neg ha]
    rw [show (rest.append (sep :: bs)) = rest ++ sep :: bs from rfl, ih bs hrest]

theorem data_concat_nl (t d : String) :
    (t ++ "\n" ++ d).data = t.data ++ '\n' :: d.data := by
  rw [String.data_append, String.data_append]
  simp

theorem splitString_single {t : String} (h : '\n' ∉ t.data) :
    splitString '\n' t = [t] := by
  simp only [splitString, splitOnChar_not_mem t.data h, List.map_cons, List.map_nil]

theorem splitString_pair {t d : String} (ht : '\n' ∉ t.data) (hd : '\n' ∉ d.data) :
    splitString '\n' (t ++ "\n" ++ d) = [t, d] := by
  simp only [splitString, data_concat_nl, splitOnChar_append t.data d.data ht,
    splitOnChar_not_mem d.data hd, List.map_cons, List.map_nil]

theorem normalize_single {t : String} (htrim : trimString t = t) (hne : t ≠ "")
    (hnl : '\n' ∉ t.data) : normalizeYAMLComment t = t := by
  rw [normalizeYAMLComment_eq_filter, splitString_single hnl]
  have hblank : (trimString t == "") = false := by
    rw [htrim]
    exact beq_eq_false_iff_ne.mpr hne
  simp only [List.filter_cons, hblank, Bool.not_false, if_true, List.filter_nil]
  rfl

theorem normalize_pair {t d : String} (htt : trimString t = t) (htd : trimString d = d)
    (hnt : t ≠ "") (hnd : d ≠ "") (hlt : '\n' ∉ t.data) (hld : '\n' ∉ d.data) :
    normalizeYAMLComment (t ++ "\n" ++ d) = t ++ "\n" ++ d := by
  rw [normalizeYAMLComment_eq_filter, splitString_pair hlt hld]
  have hbt : (trimString t == "") = false := by
    rw [htt]; exact beq_eq_false_iff_ne.mpr hnt
  have hbd : (trimString d == "") = false := by
    rw [htd]; exact beq_eq_false_iff_ne.mpr hnd
  simp only [List.filter_cons, hbt, hbd, Bool.not_false, if_true, List.filter_nil]
  rfl

/-- C5 counterexample: with title `"a"` and description `"b"` the
attached comment is `"a\nb"` — title, a single newline, description —
not the claimed `"a\n\nb"` with a blank line between them (any interior
blank line is collapsed away by the comment normalization). -/
theorem c5_counterexample :
    schemaKeyComment ⟨none, some [("title", .str "a"), ("description", .str "b")]⟩ = "a\nb"
      ∧ ("a\nb" : String) ≠ "a\n\nb" := by
  exact ⟨rfl, by decide⟩

/-- C5 (amended): the attached comment equals the title alone when the
description is absent, the description alone when the title is absent,
the single shared text when both are equal, and
`title ++ "\n" ++ description` — title, a single newline, description —
when both are present and differ; comment text in general has every
fully-blank line removed (which also trims blank leading/trailing
lines). -/
theorem c5_schema_key_comment_amended :
    (∀ s : String,
        normalizeYAMLComment s =
          String.intercalate "\n"
            ((splitString '\n' s).filter (fun l => !(trimString l == ""))))
      ∧ (∀ (t d : String) (o : Obj),
          List.lookup "title" o = some (.str t) →
          List.lookup "description" o = some (.str d) →
          trimString t = t → trimString d = d →
          t ≠ "" → d ≠ "" → '\n' ∉ t.data → '\n' ∉ d.data →
          schemaKeyComment ⟨none, some o⟩ = (if t = d then t else t ++ "\n" ++ d))
      ∧ (∀ (t : String) (o : Obj),
          List.lookup "title" o = some (.str t) →
          List.lookup "description" o = none →
          trimString t = t → t ≠ "" → '\n' ∉ t.data →
          schemaKeyComment ⟨none, some o⟩ = t)
      ∧ (∀ (d : String) (o : Obj),
          List.lookup "title" o = none →
          List.lookup "description" o = some (.str d) →
          trimString d = d → d ≠ "" → '\n' ∉ d.data →
          schemaKeyComment ⟨none, some o⟩ = d) := by
  refine ⟨normalizeYAMLComment_eq_filter, ?_, ?_, ?_⟩
  · intro t d o hto hdo htt htd hnt hnd hlt hld
    simp only [schemaKeyComment, hto, hdo, asString, htt, htd]
    rw [if_neg (by simp [hnt]), if_neg hnt, if_neg hnd]
    by_cases heq : t = d
    · rw [if_pos heq, if_pos heq]
      exact normalize_single htt hnt hlt
    · rw [if_neg heq, if_neg heq]
      exact normalize_pair htt htd hnt hnd hlt hld
  · intro t o hto hdo htt hnt hlt
    simp only [schemaKeyComment, hto, hdo, asString, htt]
    rw [show trimString "" = "" from rfl]
    rw [if_neg (by simp [hnt]), if_neg hnt, if_pos rfl]
    exact normalize_single htt hnt hlt
  · intro d o hto hdo htd hnd hld
    simp only [schemaKeyComment, hto, hdo, asString, htd]
    rw [show trimString "" = "" from rfl]
    rw [if_neg (by simp [hnd]), if_pos rfl]
    exact normalize_single htd hnd hld

/-- C5 witness: the amended comment shape applied at title `"a"` and
description `"b"`. -/
theorem c5_amended_witness :
    schemaKeyComment ⟨none, some [("title", .str "a"), ("description", .str "b")]⟩ = "a\nb" := by
  have h := c5_schema_key_comment_amended.2.1 "a" "b"
    [("title", .str "a"), ("description", .str "b")]
    rfl rfl (by decide) (by decide) (by decide) (by decide) (by decide) (by decide)
  rw [h, if_neg (by decide)]
  decide

/- ### C3: shape merging -/

theorem lookup_append_of_some {β : Type} {k : String} {v : β} :
    ∀ {l : List (String × β)} (r : List (String × β)),
      List.lookup k l = some v → List.lookup k (l ++ r) = some v := by
  intro l
  induction l with
  | nil =>
    intro r h
    simp [List.lookup] at h
  | cons p rest ih =>
    intro r h
    obtain ⟨a, b⟩ := p
    by_cases hk : (k == a) = true
    · simp [List.lookup, hk] at h ⊢
      exact h
    · simp only [List.lookup, hk] at h
      simp only [List.cons_append, List.lookup, hk]
      exact ih r h

theorem lookup_append_of_none {β : Type} {k : String} :
    ∀ {l : List (String × β)} (r : List (String × β)),
      List.lookup k l = none → List.lookup k (l ++ r) = List.lookup k r := by
  intro l
  induction l with
  | nil =>
    intro r _
    rfl
  | cons p rest ih =>
    intro r h
    obtain ⟨a, b⟩ := p
    by_cases hk : (k == a) = true
    · simp [List.lookup, hk] at h
    · simp only [List.lookup, hk] at h
      simp only [List.cons_append, List.lookup, hk]
      exact ih r h

theorem lookup_filter_absent {k : String} {l : List (String × SchemaValue)}
    (h : List.lookup k l = none) :
    ∀ r : List (String × SchemaValue),
      List.lookup k (r.filter (fun kv => (List.lookup kv.1 l).isNone)) = List.lookup k r := by
  intro r
  induction r with
  | nil => rfl
  | cons p rest ih =>
    obtain ⟨a, b⟩ := p
    by_cases hk : (k == a) = true
    · have hka : k = a := eq_of_beq hk
      have hla : (List.lookup a l).isNone = true := by
        rw [← hka, h]
        rfl
      simp only [List.filter_cons, hla, if_true, List.lookup, hk]
    · by_cases hla : (List.lookup a l).isNone = true
      · simp only [List.filter_cons, hla, if_true, List.lookup, hk]
        exact ih
      · simp only [List.filter_cons, hla, Bool.false_eq_true, if_false]
        simp only [List.lookup, hk]
        exact ih

theorem mergeRequiredAux_eq :
    ∀ (l seen : List String),
      mergeRequiredAux l seen =
        dedupFirstAux ((l.map trimString).filter (fun s => s ≠ "")) seen := by
  intro l
  induction l with
  | nil =>
    intro seen
    rfl
  | cons k rest ih =>
    intro seen
    by_cases hk : trimString k = ""
    · simp [mergeRequiredAux, hk, List.filter_cons, ih]
    · by_cases hseen : trimString k ∈ seen
      · simp [mergeRequiredAux, hk, hseen, List.filter_cons, dedupFirstAux, ih]
      · simp [mergeRequiredAux, hk, hseen, List.filter_cons, dedupFirstAux, ih]

theorem foldlM_shape_preserve {α : Type}
    (f : ((List (String × SchemaValue) × List String) × Active) → α →
      Option ((List (String × SchemaValue) × List String) × Active))
    (hf : ∀ acc x out, f acc x = some out →
      ∀ (k : String) (v : SchemaValue),
        List.lookup k acc.1.1 = some v → List.lookup k out.1.1 = some v) :
    ∀ (items : List α) acc out,
      items.foldlM f acc = some out →
      ∀ (k : String) (v : SchemaValue),
        List.lookup k acc.1.1 = some v → List.lookup k out.1.1 = some v := by
  intro items
  induction items with
  | nil =>
    intro acc out h k v hv
    simp only [List.foldlM_nil] at h
    cases h
    exact hv
  | cons x rest ih =>
    intro acc out h k v hv
    simp only [List.foldlM_cons] at h
    cases hstep : f acc x with
    | none =>
      rw [hstep] at h
      simp at h
    | some acc1 =>
      rw [hstep] at h
      have h2 : rest.foldlM f acc1 = some out := h
      exact ih acc1 out h2 k v (hf acc x acc1 hstep k v hv)

/-- C3 counterexample: `mergeRequiredKeys` trims each entry, so the
concatenate-then-dedup description fails verbatim on a key carrying
surrounding whitespace. -/
theorem c3_counterexample :
    mergeRequiredKeys ["a "] [] = ["a"]
      ∧ dedupFirst (["a "] ++ []) = ["a "]
      ∧ ("a" : String) ≠ "a " := by
  exact ⟨rfl, rfl, by decide⟩

/-- C3 (amended): property merging is first-seen-wins — a name already
present from an earlier/shallower source is never overwritten by a later
`allOf` branch, while names absent on the left are taken from the later
branch — and across the recursive `allOf` fold of
`collectObjectShapeFromObject` a node's own property is preserved
verbatim; required lists concatenate with every entry trimmed of
surrounding whitespace and empty entries dropped, then de-duplicate
preserving first-seen order. -/
theorem c3_shape_merge_amended :
    (∀ (l r : List (String × SchemaValue)) (k : String) (v : SchemaValue),
        List.lookup k l = some v → List.lookup k (mergePropertySchemas l r) = some v)
      ∧ (∀ (l r : List (String × SchemaValue)) (k : String),
          List.lookup k l = none →
          List.lookup k (mergePropertySchemas l r) = List.lookup k r)
      ∧ (∀ l r : List String,
          mergeRequiredKeys l r =
            dedupFirst (((l ++ r).map trimString).filter (fun s => s ≠ "")))
      ∧ (∀ (B : Builder) (fuel : Nat) (a : Active) (o : Obj)
          (out : (List (String × SchemaValue) × List String) × Active),
          collectObjectShapeFromObjectF B (fuel + 1) a o = some out →
          ∀ (k : String) (v : SchemaValue),
            List.lookup k (mapSchemaValues (List.lookup "properties" o)) = some v →
            List.lookup k out.1.1 = some v) := by
  have hleft : ∀ (l r : List (String × SchemaValue)) (k : String) (v : SchemaValue),
      List.lookup k l = some v → List.lookup k (mergePropertySchemas l r) = some v := by
    intro l r k v h
    have hl : l.isEmpty = false := by
      cases l with
      | nil => simp [List.lookup] at h
      | cons p rest => rfl
    simp only [mergePropertySchemas, hl, Bool.false_and, Bool.false_eq_true, if_false]
    exact lookup_append_of_some _ h
  refine ⟨hleft, ?_, ?_, ?_⟩
  · intro l r k h
    cases hl : l with
    | nil =>
      have hm : mergePropertySchemas [] r = if r.isEmpty then [] else r := by
        by_cases hr : r.isEmpty
        · simp [mergePropertySchemas, hr]
        · simp [mergePropertySchemas, hr]
      rw [hm]
      by_cases hr : r.isEmpty
      · rw [if_pos hr, List.isEmpty_iff.mp hr]
      · rw [if_neg hr]
    | cons p rest =>
      rw [← hl]
      have hle : l.isEmpty = false := by rw [hl]; rfl
      simp only [mergePropertySchemas, hle, Bool.false_and, Bool.false_eq_true, if_false]
      rw [lookup_append_of_none _ h, lookup_filter_absent h]
  · intro l r
    by_cases hb : l.isEmpty && r.isEmpty
    · have hln : l = [] := List.isEmpty_iff.mp (Bool.and_elim_left hb)
      have hrn : r = [] := List.isEmpty_iff.mp (Bool.and_elim_right hb)
      subst hln hrn
      rfl
    · simp only [mergeRequiredKeys, hb, Bool.false_eq_true, if_false]
      exact mergeRequiredAux_eq (l ++ r) []
  · intro B fuel a o out h k v hv
    simp only [collectObjectShapeFromObjectF] at h
    refine foldlM_shape_preserve _ ?_ _ _ _ h k v hv
    intro acc x stepOut hstep k2 v2 hv2
    cases htv : toSchemaValue (some x) with
    | none =>
      rw [htv] at hstep
      have h2 : some acc = some stepOut := hstep
      cases h2
      exact hv2
    | some sv =>
      rw [htv] at hstep
      have h2 : (collectObjectShapeF B fuel acc.2 sv).map
          (fun ra => ((mergePropertySchemas acc.1.1 ra.1.1,
            mergeRequiredKeys acc.1.2 ra.1.2), ra.2)) = some stepOut := hstep
      cases hcs : collectObjectShapeF B fuel acc.2 sv with
      | none =>
        rw [hcs] at h2
        simp at h2
      | some ra =>
        rw [hcs] at h2
        have h3 : some ((mergePropertySchemas acc.1.1 ra.1.1,
            mergeRequiredKeys acc.1.2 ra.1.2), ra.2) = some stepOut := h2
        cases h3
        exact hleft _ _ _ _ hv2

/-- C3 witness: the merge operations applied at concrete inputs — an
existing key survives a conflicting overlay, a fresh key is taken from
the overlay, and the recursive shape fold preserves a node's own
property. -/
theorem c3_amended_witness :
    List.lookup "a" (mergePropertySchemas [("a", zeroSchemaValue)]
        [("a", ⟨some true, none⟩)]) = some zeroSchemaValue
      ∧ List.lookup "b" (mergePropertySchemas [("a", zeroSchemaValue)]
          [("b", ⟨some true, none⟩)]) =
          List.lookup "b" [("b", (⟨some true, none⟩ : SchemaValue))]
      ∧ List.lookup "p"
          (((([("p", (⟨some true, none⟩ : SchemaValue))], []),
            ([] : Active)) : (List (String × SchemaValue) × List String) × Active).1.1) =
          some (⟨some true, none⟩ : SchemaValue) := by
  refine ⟨c3_shape_merge_amended.1 _ _ _ _ rfl,
    c3_shape_merge_amended.2.1 _ _ _ rfl,
    c3_shape_merge_amended.2.2.2 bldPlain 0 [] [("properties", .obj [("p", .bool true)])]
      (([("p", ⟨some true, none⟩)], []), []) rfl "p" ⟨some true, none⟩ rfl⟩

/- ### C6: scalar/untyped synthesis precedence -/

theorem comp_part_eq (_a1 : Active) (st : String) (x : Option (JSON × Active)) :
    (match (Option.map (fun va => (some va.1, va.2)) x : Option (Option JSON × Active)) with
      | none => none
      | some (some v, a2) => some (v, a2)
      | some (none, a2) =>
        match scalarPlaceholder st with
        | some v => some (v, a2)
        | none => some (JSON.null, a2)) = x := by
  cases x with
  | none => rfl
  | some va =>
    obtain ⟨v, a2⟩ := va
    rfl

theorem scalar_chain_eq (a1 : Active) (st : String) (e c en : Option JSON)
    (fc : Option SchemaValue) (bnf : SchemaValue → Option (JSON × Active)) :
    (match e with
      | some v => some (cloneJSONValue v, a1)
      | none =>
        match c with
        | some v => some (cloneJSONValue v, a1)
        | none =>
          match en with
          | some v => some (cloneJSONValue v, a1)
          | none =>
            match (match fc with
                    | none => some (none, a1)
                    | some sv => Option.map (fun va => (some va.1, va.2)) (bnf sv)) with
            | none => none
            | some (some v, a2) => some (v, a2)
            | some (none, a2) =>
              match scalarPlaceholder st with
              | some v => some (v, a2)
              | none => some (JSON.null, a2)) =
      (match e with
        | some v => some (cloneJSONValue v, a1)
        | none =>
          match c with
          | some v => some (cloneJSONValue v, a1)
          | none =>
            match en with
            | some v => some (cloneJSONValue v, a1)
            | none =>
              match fc with
              | some sv => bnf sv
              | none =>
                match scalarPlaceholder st with
                | some v => some (v, a1)
                | none => some (JSON.null, a1)) := by
  cases e with
  | some v => rfl
  | none =>
    cases c with
    | some v => rfl
    | none =>
      cases en with
      | some v => rfl
      | none =>
        cases fc with
        | none => rfl
        | some sv => exact comp_part_eq a1 st (bnf sv)

/-- C6: for every scalar-or-untyped schema node — type not `object`, no
merged properties or required names, type not `array`, no array-shape
keywords — `buildFromObject` follows exactly the spec's precedence chain
`specScalarChain`: explicit value (`default`, else first of `examples`,
else `example`), then `const`, then the first `enum` entry, then the
recursively synthesized first usable branch of `oneOf`/`anyOf`/`allOf`,
then the type-keyed scalar placeholder, then null. -/
theorem c6_scalar_precedence :
    ∀ (B : Builder) (fuel : Nat) (a a1 : Active) (o : Obj),
      schemaTypeName o ≠ "object" →
      schemaTypeName o ≠ "array" →
      hasArrayShape o = false →
      collectObjectShapeF B (fuel + 1) a ⟨none, some o⟩ = some (([], []), a1) →
      buildFromObjectF B (fuel + 2) a o = specScalarChain B fuel a1 o := by
  intro B fuel a a1 o h1 h2 h3 hshape
  show buildFromObjectF B (fuel + 1 + 1) a o = specScalarChain B fuel a1 o
  rw [buildFromObjectF, hshape]
  have hb1 : (schemaTypeName o == "object") = false := beq_eq_false_iff_ne.mpr h1
  have hb2 : (schemaTypeName o == "array") = false := beq_eq_false_iff_ne.mpr h2
  simp only [hb1, hb2, h3, List.isEmpty_nil, Bool.not_true, Bool.or_false, Bool.false_or,
    Bool.or_self, Bool.false_eq_true, if_false, specScalarChain]
  rw [buildCompositionFallbackF]
  exact scalar_chain_eq a1 (schemaTypeName o) (explicitExampleValue o) (constExampleValue o)
    (enumExampleValue o) (firstComposition o) (buildNodeF B fuel a1)

/-- C6 witness: the precedence equivalence applied at a concrete
`{"type": "boolean"}` node, whose synthesis is the `false` placeholder. -/
theorem c6_witness :
    buildFromObjectF bldPlain 3 [] [("type", .str "boolean")] =
        specScalarChain bldPlain 1 [] [("type", .str "boolean")]
      ∧ buildFromObjectF bldPlain 3 [] [("type", .str "boolean")] = some (.bool false, []) := by
  refine ⟨c6_scalar_precedence bldPlain 1 [] [] [("type", .str "boolean")]
    (by decide) (by decide) rfl rfl, rfl⟩

/- ### C10: activation-state restoration -/

theorem lookup_mem {β : Type} {k : String} {v : β} :
    ∀ {l : List (String × β)}, List.lookup k l = some v → (k, v) ∈ l := by
  intro l
  induction l with
  | nil =>
    intro h
    simp [List.lookup] at h
  | cons p rest ih =>
    intro h
    obtain ⟨a, b⟩ := p
    by_cases hk : (k == a) = true
    · simp only [List.lookup, hk] at h
      have hka : k = a := eq_of_beq hk
      cases h
      rw [hka]
      exact List.mem_cons_self _ _
    · rw [Bool.not_eq_true] at hk
      simp only [List.lookup, hk] at h
      exact List.mem_cons_of_mem _ (ih h)

theorem activeCount_of_none {a : Active} {r : String} (h : List.lookup r a = none) :
    activeCount a r = 0 := by
  simp [activeCount, h]

theorem lookup_none_of_ok {a : Active} {r : String} (hok : ActiveOK a)
    (hc : ¬ activeCount a r > 0) : List.lookup r a = none := by
  cases hl : List.lookup r a with
  | none => rfl
  | some c =>
    exfalso
    apply hc
    have hpos : 0 < c := hok _ (lookup_mem hl)
    simp [activeCount, hl]
    exact hpos

theorem map_setKey_of_none {r : String} {v : Int} :
    ∀ {a : Active}, List.lookup r a = none →
      a.map (fun p => if p.1 = r then (r, v) else p) = a := by
  intro a
  induction a with
  | nil => intro _; rfl
  | cons p rest ih =>
    intro h
    obtain ⟨x, c⟩ := p
    by_cases hx : (r == x) = true
    · simp [List.lookup, hx] at h
    · rw [Bool.not_eq_true] at hx
      simp only [List.lookup, hx] at h
      have hxr : ¬ (x = r) := fun he => by
        rw [he] at hx
        simp at hx
      simp only [List.map_cons, if_neg hxr, ih h]

theorem filter_neKey_of_none {r : String} :
    ∀ {a : Active}, List.lookup r a = none →
      a.filter (fun p => p.1 ≠ r) = a := by
  intro a
  induction a with
  | nil => intro _; rfl
  | cons p rest ih =>
    intro h
    obtain ⟨x, c⟩ := p
    by_cases hx : (r == x) = true
    · simp [List.lookup, hx] at h
    · rw [Bool.not_eq_true] at hx
      simp only [List.lookup, hx] at h
      have hxr : ¬ (x = r) := fun he => by
        rw [he] at hx
        simp at hx
      simp only [List.filter_cons]
      rw [if_pos (by simp [hxr]), ih h]

theorem lookup_append_single {a : Active} {r : String} {v : Int}
    (h : List.lookup r a = none) : List.lookup r (a ++ [(r, v)]) = some v := by
  rw [lookup_append_of_none _ h]
  simp [List.lookup]

theorem releaseRef_append {a : Active} {r : String} (h : List.lookup r a = none) :
    releaseRef (a ++ [(r, 1)]) r = a := by
  have hc : activeCount (a ++ [(r, 1)]) r = 1 := by
    simp [activeCount, lookup_append_single h]
  have hset : activeSet (a ++ [(r, 1)]) r (activeCount (a ++ [(r, 1)]) r - 1) =
      a ++ [(r, 0)] := by
    simp only [activeSet, hc]
    rw [if_pos (by simp [lookup_append_single h])]
    rw [List.map_append, map_setKey_of_none h]
    norm_num
  have hc0 : activeCount (a ++ [(r, 0)]) r = 0 := by
    simp [activeCount, lookup_append_single h]
  simp only [releaseRef, hset, hc0]
  rw [if_pos (by norm_num)]
  rw [List.filter_append, filter_neKey_of_none h]
  simp

theorem activeOK_append {a : Active} {r : String} (hok : ActiveOK a) :
    ActiveOK (a ++ [(r, 1)]) := by
  intro p hp
  rcases List.mem_append.mp hp with hp | hp
  · exact hok p hp
  · rcases List.mem_singleton.mp hp with rfl
    norm_num

theorem enterReference_activate {a : Active} {ref k : String} {a1 : Active}
    (hok : ActiveOK a) (h : enterReference a ref = (.activate k, a1)) :
    List.lookup k a = none ∧ a1 = a ++ [(k, 1)] := by
  simp only [enterReference] at h
  by_cases h0 : trimString ref = ""
  · rw [if_pos h0] at h
    exact absurd (congrArg Prod.fst h) (by simp)
  · rw [if_neg h0] at h
    by_cases hcnt : activeCount a (trimString ref) > 0
    · rw [if_pos hcnt] at h
      exact absurd (congrArg Prod.fst h) (by simp)
    · rw [if_neg hcnt] at h
      have hfst := congrArg Prod.fst h
      have hsnd := congrArg Prod.snd h
      simp only at hfst hsnd
      have hkk : trimString ref = k := by
        injection hfst
      have hnone : List.lookup (trimString ref) a = none := lookup_none_of_ok hok hcnt
      subst hkk
      refine ⟨hnone, ?_⟩
      rw [← hsnd]
      simp only [activeSet, activeCount_of_none hnone]
      rw [if_neg (by simp [hnone])]
      norm_num

theorem enterReference_state_eq {a : Active} {ref : String} {out : EnterOutcome} {a1 : Active}
    (h : enterReference a ref = (out, a1)) (hcase : out = .refuse ∨ out = .noop) : a1 = a := by
  simp only [enterReference] at h
  by_cases ht : trimString ref = ""
  · rw [if_pos ht] at h
    exact (congrArg Prod.snd h).symm
  · rw [if_neg ht] at h
    by_cases hc : activeCount a (trimString ref) > 0
    · rw [if_pos hc] at h
      exact (congrArg Prod.snd h).symm
    · rw [if_neg hc] at h
      have hf := congrArg Prod.fst h
      simp only at hf
      rcases hcase with ho | ho <;>
        (rw [ho] at hf; simp at hf)

theorem resolvedRef_cases (B : Builder) (a : Active) (o : Obj) (hok : ActiveOK a) :
    (∃ a1, resolvedObjectForReferenceS B a o = (.notRef, a1) ∧ a1 = a)
    ∨ (∃ s a1, resolvedObjectForReferenceS B a o = (.degraded s, a1) ∧ a1 = a)
    ∨ (∃ a1, resolvedObjectForReferenceS B a o = (.refused, a1) ∧ a1 = a)
    ∨ (∃ m a1, resolvedObjectForReferenceS B a o = (.entered m none, a1) ∧ a1 = a)
    ∨ (∃ m k, resolvedObjectForReferenceS B a o = (.entered m (some k), a ++ [(k, 1)])
        ∧ List.lookup k a = none) := by
  by_cases h0 : asString (List.lookup "$ref" o) = ""
  · left
    refine ⟨a, ?_, rfl⟩
    simp only [resolvedObjectForReferenceS]
    rw [if_pos h0]
  · cases hres : resolveLocalReference B (asString (List.lookup "$ref" o)) with
    | none =>
      right; left
      refine ⟨stripReferenceKeyword o, a, ?_, rfl⟩
      simp only [resolvedObjectForReferenceS]
      rw [if_neg h0, hres]
    | some sv =>
      obtain ⟨bv, ov⟩ := sv
      cases ov with
      | none =>
        right; left
        refine ⟨stripReferenceKeyword o, a, ?_, rfl⟩
        simp only [resolvedObjectForReferenceS]
        rw [if_neg h0, hres]
      | some ro =>
        have hmain : resolvedObjectForReferenceS B a o =
            (match enterReference a (asString (List.lookup "$ref" o)) with
              | (.refuse, a1) => (RefOutcome.refused, a1)
              | (.noop, a1) => (RefOutcome.entered (mergeSchemaObjects ro o) none, a1)
              | (.activate k, a1) => (RefOutcome.entered (mergeSchemaObjects ro o) (some k), a1)) := by
          simp only [resolvedObjectForReferenceS]
          rw [if_neg h0, hres]
        cases hent : enterReference a (asString (List.lookup "$ref" o)) with
        | mk outcome a1 =>
          rw [hent] at hmain
          cases outcome with
          | refuse =>
            right; right; left
            exact ⟨a1, hmain, enterReference_state_eq hent (Or.inl rfl)⟩
          | noop =>
            right; right; right; left
            exact ⟨mergeSchemaObjects ro o, a1, hmain, enterReference_state_eq hent (Or.inr rfl)⟩
          | activate k =>
            right; right; right; right
            obtain ⟨hnone, ha1⟩ := enterReference_activate hok hent
            rw [ha1] at hmain
            exact ⟨mergeSchemaObjects ro o, k, hmain, hnone⟩

theorem buildNodeF_succ_obj (B : Builder) (fuel : Nat) (a : Active) (o : Obj) :
    buildNodeF B (fuel + 1) a ⟨none, some o⟩ =
      (match resolvedObjectForReferenceS B a o with
        | (.notRef, a1) => buildFromObjectF B fuel a1 o
        | (.degraded s, a1) => buildNodeF B fuel a1 ⟨none, some s⟩
        | (.refused, a1) => some (JSON.null, a1)
        | (.entered m rel, a1) =>
          (buildNodeF B fuel a1 ⟨none, some m⟩).map
            (fun va =>
              (va.1, match rel with
                     | some k => releaseRef va.2 k
                     | none => va.2))) := rfl

theorem buildFromObjectF_succ (B : Builder) (fuel : Nat) (a : Active) (o : Obj) :
    buildFromObjectF B (fuel + 1) a o =
      (match collectObjectShapeF B fuel a ⟨none, some o⟩ with
        | none => none
        | some (shape, a1) =>
          if schemaTypeName o == "object" || !shape.1.isEmpty || !shape.2.isEmpty then
            buildObjectFromShapeF B fuel a1 shape.1 shape.2
          else if schemaTypeName o == "array" || hasArrayShape o then
            buildArrayFromObjectF B fuel a1 o
          else
            match explicitExampleValue o with
            | some v => some (cloneJSONValue v, a1)
            | none =>
              match constExampleValue o with
              | some v => some (cloneJSONValue v, a1)
              | none =>
                match enumExampleValue o with
                | some v => some (cloneJSONValue v, a1)
                | none =>
                  match buildCompositionFallbackF B fuel a1 o with
                  | none => none
                  | some (some v, a2) => some (v, a2)
                  | some (none, a2) =>
                    match scalarPlaceholder (schemaTypeName o) with
                    | some v => some (v, a2)
                    | none => some (JSON.null, a2)) := rfl

theorem buildObjectFromShapeF_succ (B : Builder) (fuel : Nat) (a : Active)
    (props : List (String × SchemaValue)) (req : List String) :
    buildObjectFromShapeF B (fuel + 1) a props req =
      (if props.isEmpty then some (.obj [], a)
        else
          ((if B.mode = .required then requiredPropertyOrder req props
              else propertyOrder req props).foldlM
              (fun (acc : Obj × Active) key =>
                (buildNodeF B fuel acc.2 ((List.lookup key props).getD zeroSchemaValue)).map
                  (fun (va : JSON × Active) => (acc.1 ++ [(key, va.1)], va.2)))
              (([] : Obj), a)).map
            (fun (p : Obj × Active) => (.obj p.1, p.2))) := rfl

theorem buildArrayFromObjectF_succ (B : Builder) (fuel : Nat) (a : Active) (o : Obj) :
    buildArrayFromObjectF B (fuel + 1) a o =
      (match explicitExampleValue o with
        | some (.arr xs) => some (.arr (cloneArr xs), a)
        | _ =>
          match constExampleValue o with
          | some (.arr xs) => some (.arr (cloneArr xs), a)
          | _ =>
            match enumExampleValue o with
            | some (.arr xs) => some (.arr (cloneArr xs), a)
            | _ =>
              let pre := asSlice (List.lookup "prefixItems" o)
              if !pre.isEmpty then
                (pre.foldlM
                    (fun (acc : List JSON × Active) raw =>
                      match toSchemaValue (some raw) with
                      | none => some (acc.1 ++ [JSON.null], acc.2)
                      | some item =>
                        (buildNodeF B fuel acc.2 item).map
                          (fun (va : JSON × Active) => (acc.1 ++ [va.1], va.2)))
                    (([] : List JSON), a)).map
                  (fun (p : List JSON × Active) => (.arr p.1, p.2))
              else
                match toSchemaValue (List.lookup "items" o) with
                | some item => (buildNodeF B fuel a item).map (fun va => (.arr [va.1], va.2))
                | none => some (.arr [], a)) := rfl

theorem collectObjectShapeFromObjectF_succ (B : Builder) (fuel : Nat) (a : Active) (o : Obj) :
    collectObjectShapeFromObjectF B (fuel + 1) a o =
      (asSlice (List.lookup "allOf" o)).foldlM
        (fun (acc : (List (String × SchemaValue) × List String) × Active) raw =>
          match toSchemaValue (some raw) with
          | none => some acc
          | some sv =>
            (collectObjectShapeF B fuel acc.2 sv).map
              (fun ra =>
                ((mergePropertySchemas acc.1.1 ra.1.1,
                  mergeRequiredKeys acc.1.2 ra.1.2), ra.2)))
        ((mapSchemaValues (List.lookup "properties" o),
          asStringSlice (List.lookup "required" o)), a) := rfl

theorem buildCompositionFallbackF_succ (B : Builder) (fuel : Nat) (a : Active) (o : Obj) :
    buildCompositionFallbackF B (fuel + 1) a o =
      (match firstComposition o with
        | none => some (none, a)
        | some sv => (buildNodeF B fuel a sv).map (fun va => (some va.1, va.2))) := rfl

theorem arrMatch_cases {e : Option JSON} {a : Active} {rest : Option (JSON × Active)}
    {out : JSON × Active}
    (h : (match e with
          | some (.arr xs) => some (JSON.arr (cloneArr xs), a)
          | _ => rest) = some out) :
    out.2 = a ∨ rest = some out := by
  cases e with
  | none => exact Or.inr h
  | some v =>
    cases v with
    | arr xs =>
      have h2 : some (JSON.arr (cloneArr xs), a) = some out := h
      cases h2
      exact Or.inl rfl
    | null => exact Or.inr h
    | bool b => exact Or.inr h
    | num n => exact Or.inr h
    | str s => exact Or.inr h
    | obj fs => exact Or.inr h

theorem collectObjectShapeF_succ_obj (B : Builder) (fuel : Nat) (a : Active)
    (bv : Option Bool) (o : Obj) :
    collectObjectShapeF B (fuel + 1) a ⟨bv, some o⟩ =
      (match resolvedObjectForReferenceS B a o with
        | (.notRef, a1) => collectObjectShapeFromObjectF B fuel a1 o
        | (.degraded s, a1) => collectObjectShapeF B fuel a1 ⟨none, some s⟩
        | (.refused, a1) => some (([], []), a1)
        | (.entered m rel, a1) =>
          (collectObjectShapeF B fuel a1 ⟨none, some m⟩).map
            (fun ra =>
              (ra.1, match rel with
                     | some k => releaseRef ra.2 k
                     | none => ra.2))) := rfl

theorem foldlM_state_preserve {σ α : Type} (proj : σ → Active) (f : σ → α → Option σ)
    (hf : ∀ (acc : σ) (x : α) (acc1 : σ),
      ActiveOK (proj acc) → f acc x = some acc1 → proj acc1 = proj acc) :
    ∀ (items : List α) (acc out : σ), ActiveOK (proj acc) →
      items.foldlM f acc = some out → proj out = proj acc := by
  intro items
  induction items with
  | nil =>
    intro acc out _ h
    simp only [List.foldlM_nil] at h
    cases h
    rfl
  | cons x rest ih =>
    intro acc out hok h
    simp only [List.foldlM_cons] at h
    cases hstep : f acc x with
    | none =>
      rw [hstep] at h
      simp at h
    | some acc1 =>
      rw [hstep] at h
      have h2 : rest.foldlM f acc1 = some out := h
      have hps := hf acc x acc1 hok hstep
      have hok1 : ActiveOK (proj acc1) := by rw [hps]; exact hok
      rw [ih acc1 out hok1 h2, hps]

theorem stateRestoreAll : ∀ fuel : Nat,
    (∀ (B : Builder) (a : Active) (sv : SchemaValue) (out : JSON × Active),
        ActiveOK a → buildNodeF B fuel a sv = some out → out.2 = a)
    ∧ (∀ (B : Builder) (a : Active) (o : Obj) (out : JSON × Active),
        ActiveOK a → buildFromObjectF B fuel a o = some out → out.2 = a)
    ∧ (∀ (B : Builder) (a : Active) (props : List (String × SchemaValue)) (req : List String)
        (out : JSON × Active),
        ActiveOK a → buildObjectFromShapeF B fuel a props req = some out → out.2 = a)
    ∧ (∀ (B : Builder) (a : Active) (o : Obj) (out : JSON × Active),
        ActiveOK a → buildArrayFromObjectF B fuel a o = some out → out.2 = a)
    ∧ (∀ (B : Builder) (a : Active) (sv : SchemaValue)
        (out : (List (String × SchemaValue) × List String) × Active),
        ActiveOK a → collectObjectShapeF B fuel a sv = some out → out.2 = a)
    ∧ (∀ (B : Builder) (a : Active) (o : Obj)
        (out : (List (String × SchemaValue) × List String) × Active),
        ActiveOK a → collectObjectShapeFromObjectF B fuel a o = some out → out.2 = a)
    ∧ (∀ (B : Builder) (a : Active) (o : Obj) (out : Option JSON × Active),
        ActiveOK a → buildCompositionFallbackF B fuel a o = some out → out.2 = a) := by
  intro fuel
  induction fuel with
  | zero =>
    refine ⟨?_, ?_, ?_, ?_, ?_, ?_, ?_⟩
    · intro B a sv out _ h
      exact Option.noConfusion h
    · intro B a o out _ h
      exact Option.noConfusion h
    · intro B a props req out _ h
      exact Option.noConfusion h
    · intro B a o out _ h
      exact Option.noConfusion h
    · intro B a sv out _ h
      exact Option.noConfusion h
    · intro B a o out _ h
      exact Option.noConfusion h
    · intro B a o out _ h
      exact Option.noConfusion h
  | succ fuel ih =>
    obtain ⟨Pn, Pf, Po, Pa, Pc, Pco, Pcmp⟩ := ih
    refine ⟨?_, ?_, ?_, ?_, ?_, ?_, ?_⟩
    -- buildNodeF
    · intro B a sv out hok h
      obtain ⟨bv, ov⟩ := sv
      cases bv with
      | some b =>
        have h2 : some (JSON.null, a) = some out := h
        cases h2
        rfl
      | none =>
        cases ov with
        | none =>
          have h2 : some (JSON.null, a) = some out := h
          cases h2
          rfl
        | some o =>
          rw [buildNodeF_succ_obj] at h
          rcases resolvedRef_cases B a o hok with
            ⟨a1, heq, ha⟩ | ⟨s, a1, heq, ha⟩ | ⟨a1, heq, ha⟩ | ⟨m, a1, heq, ha⟩ |
            ⟨m, k, heq, hnone⟩
          · rw [heq] at h
            have h2 : buildFromObjectF B fuel a1 o = some out := h
            rw [ha] at h2
            exact Pf B a o out hok h2
          · rw [heq] at h
            have h2 : buildNodeF B fuel a1 ⟨none, some s⟩ = some out := h
            rw [ha] at h2
            exact Pn B a ⟨none, some s⟩ out hok h2
          · rw [heq] at h
            have h2 : some (JSON.null, a1) = some out := h
            cases h2
            exact ha
          · rw [heq] at h
            have h2 : (buildNodeF B fuel a1 ⟨none, some m⟩).map
                (fun va => (va.1, va.2)) = some out := h
            cases hbn : buildNodeF B fuel a1 ⟨none, some m⟩ with
            | none =>
              rw [hbn] at h2
              simp at h2
            | some vb =>
              rw [hbn] at h2
              have h3 : some (vb.1, vb.2) = some out := h2
              cases h3
              have hvb := Pn B a1 ⟨none, some m⟩ vb (ha ▸ hok) hbn
              rw [hvb, ha]
          · rw [heq] at h
            have h2 : (buildNodeF B fuel (a ++ [(k, 1)]) ⟨none, some m⟩).map
                (fun va => (va.1, releaseRef va.2 k)) = some out := h
            cases hbn : buildNodeF B fuel (a ++ [(k, 1)]) ⟨none, some m⟩ with
            | none =>
              rw [hbn] at h2
              simp at h2
            | some vb =>
              rw [hbn] at h2
              have h3 : some (vb.1, releaseRef vb.2 k) = some out := h2
              cases h3
              have hok1 : ActiveOK (a ++ [(k, 1)]) := activeOK_append hok
              have hvb := Pn B (a ++ [(k, 1)]) ⟨none, some m⟩ vb hok1 hbn
              show releaseRef vb.2 k = a
              rw [hvb]
              exact releaseRef_append hnone
    -- buildFromObjectF
    · intro B a o out hok h
      rw [buildFromObjectF_succ] at h
      cases hcs : collectObjectShapeF B fuel a ⟨none, some o⟩ with
      | none =>
        rw [hcs] at h
        exact Option.noConfusion h
      | some p =>
        obtain ⟨shape, a1⟩ := p
        rw [hcs] at h
        have ha1 : a1 = a := Pc B a ⟨none, some o⟩ (shape, a1) hok hcs
        have hok1 : ActiveOK a1 := by rw [ha1]; exact hok
        have h2 : (if schemaTypeName o == "object" || !shape.1.isEmpty || !shape.2.isEmpty then
              buildObjectFromShapeF B fuel a1 shape.1 shape.2
            else if schemaTypeName o == "array" || hasArrayShape o then
              buildArrayFromObjectF B fuel a1 o
            else
              match explicitExampleValue o with
              | some v => some (cloneJSONValue v, a1)
              | none =>
                match constExampleValue o with
                | some v => some (cloneJSONValue v, a1)
                | none =>
                  match enumExampleValue o with
                  | some v => some (cloneJSONValue v, a1)
                  | none =>
                    match buildCompositionFallbackF B fuel a1 o with
                    | none => none
                    | some (some v, a2) => some (v, a2)
                    | some (none, a2) =>
                      match scalarPlaceholder (schemaTypeName o) with
                      | some v => some (v, a2)
                      | none => some (JSON.null, a2)) = some out := h
        by_cases hb1 : (schemaTypeName o == "object" || !shape.1.isEmpty || !shape.2.isEmpty) = true
        · rw [if_pos hb1] at h2
          rw [ha1] at h2
          exact Po B a shape.1 shape.2 out hok h2
        · rw [if_neg hb1] at h2
          by_cases hb2 : (schemaTypeName o == "array" || hasArrayShape o) = true
          · rw [if_pos hb2] at h2
            rw [ha1] at h2
            exact Pa B a o out hok h2
          · rw [if_neg hb2] at h2
            cases hev : explicitExampleValue o with
            | some v =>
              rw [hev] at h2
              have h3 : some (cloneJSONValue v, a1) = some out := h2
              cases h3
              exact ha1
            | none =>
              rw [hev] at h2
              cases hcv : constExampleValue o with
              | some v =>
                rw [hcv] at h2
                have h3 : some (cloneJSONValue v, a1) = some out := h2
                cases h3
                exact ha1
              | none =>
                rw [hcv] at h2
                cases henv : enumExampleValue o with
                | some v =>
                  rw [henv] at h2
                  have h3 : some (cloneJSONValue v, a1) = some out := h2
                  cases h3
                  exact ha1
                | none =>
                  rw [henv] at h2
                  cases hcf : buildCompositionFallbackF B fuel a1 o with
                  | none =>
                    rw [hcf] at h2
                    exact Option.noConfusion h2
                  | some q =>
                    obtain ⟨ov2, a2⟩ := q
                    rw [hcf] at h2
                    have ha2 : a2 = a1 := Pcmp B a1 o (ov2, a2) hok1 hcf
                    cases ov2 with
                    | some v =>
                      have h3 : some (v, a2) = some out := h2
                      cases h3
                      exact ha2.trans ha1
                    | none =>
                      cases hsp : scalarPlaceholder (schemaTypeName o) with
                      | some v =>
                        rw [hsp] at h2
                        have h3 : some (v, a2) = some out := h2
                        cases h3
                        exact ha2.trans ha1
                      | none =>
                        rw [hsp] at h2
                        have h3 : some (JSON.null, a2) = some out := h2
                        cases h3
                        exact ha2.trans ha1
    -- buildObjectFromShapeF
    · intro B a props req out hok h
      rw [buildObjectFromShapeF_succ] at h
      by_cases hp : props.isEmpty = true
      · rw [if_pos hp] at h
        have h2 : some (JSON.obj [], a) = some out := h
        cases h2
        rfl
      · rw [if_neg hp] at h
        cases hfold : ((if B.mode = .required then requiredPropertyOrder req props
            else propertyOrder req props).foldlM
            (fun (acc : Obj × Active) key =>
              (buildNodeF B fuel acc.2 ((List.lookup key props).getD zeroSchemaValue)).map
                (fun (va : JSON × Active) => (acc.1 ++ [(key, va.1)], va.2)))
            (([] : Obj), a)) with
        | none =>
          rw [hfold] at h
          exact Option.noConfusion h
        | some q =>
          rw [hfold] at h
          have h2 : some (JSON.obj q.1, q.2) = some out := h
          cases h2
          show q.2 = a
          have hf : ∀ (acc : Obj × Active) (key : String) (acc1 : Obj × Active),
              ActiveOK acc.2 →
              ((buildNodeF B fuel acc.2 ((List.lookup key props).getD zeroSchemaValue)).map
                (fun (va : JSON × Active) => (acc.1 ++ [(key, va.1)], va.2))) = some acc1 →
              acc1.2 = acc.2 := by
            intro acc key acc1 hok2 hstep
            cases hbn : buildNodeF B fuel acc.2 ((List.lookup key props).getD zeroSchemaValue) with
            | none =>
              rw [hbn] at hstep
              simp at hstep
            | some vb =>
              rw [hbn] at hstep
              have h3 : some (acc.1 ++ [(key, vb.1)], vb.2) = some acc1 := hstep
              cases h3
              exact Pn B acc.2 _ vb hok2 hbn
          exact foldlM_state_preserve Prod.snd _ hf _ (([] : Obj), a) q hok hfold
    -- buildArrayFromObjectF
    · intro B a o out hok h
      rw [buildArrayFromObjectF_succ] at h
      rcases arrMatch_cases h with h0 | h
      · exact h0
      rcases arrMatch_cases h with h0 | h
      · exact h0
      rcases arrMatch_cases h with h0 | h
      · exact h0
      by_cases hpre : (!(asSlice (List.lookup "prefixItems" o)).isEmpty) = true
      · have h2 : ((asSlice (List.lookup "prefixItems" o)).foldlM
            (fun (acc : List JSON × Active) raw =>
              match toSchemaValue (some raw) with
              | none => some (acc.1 ++ [JSON.null], acc.2)
              | some item =>
                (buildNodeF B fuel acc.2 item).map
                  (fun (va : JSON × Active) => (acc.1 ++ [va.1], va.2)))
            (([] : List JSON), a)).map
            (fun (p : List JSON × Active) => (JSON.arr p.1, p.2)) = some out := by
          rw [← h]
          show _ = (if !(asSlice (List.lookup "prefixItems" o)).isEmpty then _ else _)
          rw [if_pos hpre]
        cases hfold : ((asSlice (List.lookup "prefixItems" o)).foldlM
            (fun (acc : List JSON × Active) raw =>
              match toSchemaValue (some raw) with
              | none => some (acc.1 ++ [JSON.null], acc.2)
              | some item =>
                (buildNodeF B fuel acc.2 item).map
                  (fun (va : JSON × Active) => (acc.1 ++ [va.1], va.2)))
            (([] : List JSON), a)) with
        | none =>
          rw [hfold] at h2
          exact Option.noConfusion h2
        | some q =>
          rw [hfold] at h2
          have h3 : some (JSON.arr q.1, q.2) = some out := h2
          cases h3
          show q.2 = a
          have hf : ∀ (acc : List JSON × Active) (raw : JSON) (acc1 : List JSON × Active),
              ActiveOK acc.2 →
              (match toSchemaValue (some raw) with
                | none => some (acc.1 ++ [JSON.null], acc.2)
                | some item =>
                  (buildNodeF B fuel acc.2 item).map
                    (fun (va : JSON × Active) => (acc.1 ++ [va.1], va.2))) = some acc1 →
              acc1.2 = acc.2 := by
            intro acc raw acc1 hok2 hstep
            cases htv : toSchemaValue (some raw) with
            | none =>
              rw [htv] at hstep
              have h4 : some (acc.1 ++ [JSON.null], acc.2) = some acc1 := hstep
              cases h4
              rfl
            | some item =>
              rw [htv] at hstep
              have hstep2 : (buildNodeF B fuel acc.2 item).map
                  (fun (va : JSON × Active) => (acc.1 ++ [va.1], va.2)) = some acc1 := hstep
              cases hbn : buildNodeF B fuel acc.2 item with
              | none =>
                rw [hbn] at hstep2
                simp at hstep2
              | some vb =>
                rw [hbn] at hstep2
                have h4 : some (acc.1 ++ [vb.1], vb.2) = some acc1 := hstep2
                cases h4
                exact Pn B acc.2 item vb hok2 hbn
          exact foldlM_state_preserve Prod.snd _ hf _ (([] : List JSON), a) q hok hfold
      · have h2 : (match toSchemaValue (List.lookup "items" o) with
            | some item =>
              (buildNodeF B fuel a item).map (fun va => (JSON.arr [va.1], va.2))
            | none => some (JSON.arr [], a)) = some out := by
          rw [← h]
          show _ = (if !(asSlice (List.lookup "prefixItems" o)).isEmpty then _ else _)
          rw [if_neg hpre]
        cases hti : toSchemaValue (List.lookup "items" o) with
        | none =>
          rw [hti] at h2
          have h3 : some (JSON.arr [], a) = some out := h2
          cases h3
          rfl
        | some item =>
          rw [hti] at h2
          have h2b : (buildNodeF B fuel a item).map
              (fun va => (JSON.arr [va.1], va.2)) = some out := h2
          cases hbn : buildNodeF B fuel a item with
          | none =>
            rw [hbn] at h2b
            simp at h2b
          | some vb =>
            rw [hbn] at h2b
            have h3 : some (JSON.arr [vb.1], vb.2) = some out := h2b
            cases h3
            exact Pn B a item vb hok hbn
    -- collectObjectShapeF
    · intro B a sv out hok h
      obtain ⟨bv, ov⟩ := sv
      cases ov with
      | none =>
        have h2 : some ((([] : List (String × SchemaValue)), ([] : List String)), a) = some out := h
        cases h2
        rfl
      | some o =>
        rw [collectObjectShapeF_succ_obj] at h
        rcases resolvedRef_cases B a o hok with
          ⟨a1, heq, ha⟩ | ⟨s, a1, heq, ha⟩ | ⟨a1, heq, ha⟩ | ⟨m, a1, heq, ha⟩ |
          ⟨m, k, heq, hnone⟩
        · rw [heq] at h
          have h2 : collectObjectShapeFromObjectF B fuel a1 o = some out := h
          rw [ha] at h2
          exact Pco B a o out hok h2
        · rw [heq] at h
          have h2 : collectObjectShapeF B fuel a1 ⟨none, some s⟩ = some out := h
          rw [ha] at h2
          exact Pc B a ⟨none, some s⟩ out hok h2
        · rw [heq] at h
          have h2 : some ((([] : List (String × SchemaValue)), ([] : List String)), a1) =
              some out := h
          cases h2
          exact ha
        · rw [heq] at h
          have h2 : (collectObjectShapeF B fuel a1 ⟨none, some m⟩).map
              (fun ra => (ra.1, ra.2)) = some out := h
          cases hbn : collectObjectShapeF B fuel a1 ⟨none, some m⟩ with
          | none =>
            rw [hbn] at h2
            simp at h2
          | some rb =>
            rw [hbn] at h2
            have h3 : some (rb.1, rb.2) = some out := h2
            cases h3
            have hrb := Pc B a1 ⟨none, some m⟩ rb (ha ▸ hok) hbn
            rw [hrb, ha]
        · rw [heq] at h
          have h2 : (collectObjectShapeF B fuel (a ++ [(k, 1)]) ⟨none, some m⟩).map
              (fun ra => (ra.1, releaseRef ra.2 k)) = some out := h
          cases hbn : collectObjectShapeF B fuel (a ++ [(k, 1)]) ⟨none, some m⟩ with
          | none =>
            rw [hbn] at h2
            simp at h2
          | some rb =>
            rw [hbn] at h2
            have h3 : some (rb.1, releaseRef rb.2 k) = some out := h2
            cases h3
            have hok1 : ActiveOK (a ++ [(k, 1)]) := activeOK_append hok
            have hrb := Pc B (a ++ [(k, 1)]) ⟨none, some m⟩ rb hok1 hbn
            show releaseRef rb.2 k = a
            rw [hrb]
            exact releaseRef_append hnone
    -- collectObjectShapeFromObjectF
    · intro B a o out hok h
      rw [collectObjectShapeFromObjectF_succ] at h
      have hf : ∀ (acc : (List (String × SchemaValue) × List String) × Active) (raw : JSON)
          (acc1 : (List (String × SchemaValue) × List String) × Active),
          ActiveOK acc.2 →
          (match toSchemaValue (some raw) with
            | none => some acc
            | some sv =>
              (collectObjectShapeF B fuel acc.2 sv).map
                (fun ra =>
                  ((mergePropertySchemas acc.1.1 ra.1.1,
                    mergeRequiredKeys acc.1.2 ra.1.2), ra.2))) = some acc1 →
          acc1.2 = acc.2 := by
        intro acc raw acc1 hok2 hstep
        cases htv : toSchemaValue (some raw) with
        | none =>
          rw [htv] at hstep
          have h2 : some acc = some acc1 := hstep
          cases h2
          rfl
        | some sv =>
          rw [htv] at hstep
          have hstep2 : (collectObjectShapeF B fuel acc.2 sv).map
              (fun ra =>
                ((mergePropertySchemas acc.1.1 ra.1.1,
                  mergeRequiredKeys acc.1.2 ra.1.2), ra.2)) = some acc1 := hstep
          cases hcs : collectObjectShapeF B fuel acc.2 sv with
          | none =>
            rw [hcs] at hstep2
            simp at hstep2
          | some ra =>
            rw [hcs] at hstep2
            have h2 : some ((mergePropertySchemas acc.1.1 ra.1.1,
                mergeRequiredKeys acc.1.2 ra.1.2), ra.2) = some acc1 := hstep2
            cases h2
            exact Pc B acc.2 sv ra hok2 hcs
      exact foldlM_state_preserve Prod.snd _ hf _ _ out hok h
    -- buildCompositionFallbackF
    · intro B a o out hok h
      rw [buildCompositionFallbackF_succ] at h
      cases hfc : firstComposition o with
      | none =>
        rw [hfc] at h
        have h2 : some ((none : Option JSON), a) = some out := h
        cases h2
        rfl
      | some sv =>
        rw [hfc] at h
        have hb : (buildNodeF B fuel a sv).map
            (fun va => ((some va.1 : Option JSON), va.2)) = some out := h
        cases hbn : buildNodeF B fuel a sv with
        | none =>
          rw [hbn] at hb
          simp at hb
        | some vb =>
          rw [hbn] at hb
          have h2 : some (some vb.1, vb.2) = some out := hb
          cases h2
          exact Pn B a sv vb hok hbn

theorem bfsEdgeFold_nodup (root : String) (cur : BfsItem) :
    ∀ (edges : List DefEdge) (queue : List BfsItem) (seen : List String)
      (paths : String → List String),
      (∀ name p, p ∈ paths name → mkSeenKey name p ∈ seen) →
      (∀ name, (paths name).Nodup) →
      ((∀ name p, p ∈ (bfsEdgeFold root cur edges queue seen paths).2.2 name →
          mkSeenKey name p ∈ (bfsEdgeFold root cur edges queue seen paths).2.1) ∧
       (∀ name, ((bfsEdgeFold root cur edges queue seen paths).2.2 name).Nodup)) := by
  intro edges
  induction edges with
  | nil =>
    intro queue seen paths hinv hnd
    exact ⟨hinv, hnd⟩
  | cons e rest ih =>
    intro queue seen paths hinv hnd
    obtain ⟨path, target⟩ := e
    have hstep : bfsEdgeFold root cur ((path, target) :: rest) queue seen paths =
        (if target = root then bfsEdgeFold root cur rest queue seen paths
        else if trimString (appendPath cur.pfx path) = "" then
          bfsEdgeFold root cur rest queue seen paths
        else if mkSeenKey target (appendPath cur.pfx path) ∈ seen then
          bfsEdgeFold root cur rest queue seen paths
        else
          bfsEdgeFold root cur rest
            (queue ++ [⟨target, appendPath cur.pfx path, cur.depth + 1⟩])
            (mkSeenKey target (appendPath cur.pfx path) :: seen)
            (fun n => if n = target then
                paths n ++ [appendPath cur.pfx path]
              else paths n)) := rfl
    rw [hstep]
    by_cases ht : target = root
    · rw [if_pos ht]
      exact ih queue seen paths hinv hnd
    · rw [if_neg ht]
      by_cases htrim : trimString (appendPath cur.pfx path) = ""
      · rw [if_pos htrim]
        exact ih queue seen paths hinv hnd
      · rw [if_neg htrim]
        by_cases hkey : mkSeenKey target (appendPath cur.pfx path) ∈ seen
        · rw [if_pos hkey]
          exact ih queue seen paths hinv hnd
        · rw [if_neg hkey]
          apply ih
          · intro name p hp
            by_cases hn : name = target
            · rw [if_pos hn] at hp
              rcases List.mem_append.mp hp with h1 | h2
              · exact List.mem_cons_of_mem _ (hinv name p h1)
              · have hp2 : p = appendPath cur.pfx path := List.mem_singleton.mp h2
                rw [hp2, hn]
                exact List.mem_cons_self _ _
            · rw [if_neg hn] at hp
              exact List.mem_cons_of_mem _ (hinv name p hp)
          · intro name
            by_cases hn : name = target
            · rw [if_pos hn]
              refine List.Nodup.append (hnd name) (List.nodup_singleton _) ?_
              intro x hx hx2
              have hx3 : x = appendPath cur.pfx path := List.mem_singleton.mp hx2
              apply hkey
              have := hinv name x hx
              rw [hx3, hn] at this
              exact this
            · rw [if_neg hn]
              exact hnd name

theorem bfsLoopF_nodup (defs : List (String × SchemaValue)) (root : String) (ef : Nat) :
    ∀ (fuel : Nat) (queue : List BfsItem) (seen : List String)
      (paths : String → List String) (res : String → List String),
      (∀ name p, p ∈ paths name → mkSeenKey name p ∈ seen) →
      (∀ name, (paths name).Nodup) →
      bfsLoopF defs root ef fuel queue seen paths = some res →
      ∀ name, (res name).Nodup := by
  intro fuel
  induction fuel with
  | zero =>
    intro queue seen paths res _ _ h
    exact Option.noConfusion h
  | succ fuel ih =>
    intro queue seen paths res hinv hnd h
    cases queue with
    | nil =>
      have h2 : some paths = some res := h
      cases h2
      exact hnd
    | cons cur rest =>
      have hstep : bfsLoopF defs root ef (fuel + 1) (cur :: rest) seen paths =
          (if cur.depth ≥ 20 then bfsLoopF defs root ef fuel rest seen paths
          else
            match definitionEdgesF ef ((List.lookup cur.dfn defs).getD zeroSchemaValue) with
            | none => none
            | some edges =>
              bfsLoopF defs root ef fuel
                (bfsEdgeFold root cur edges rest seen paths).1
                (bfsEdgeFold root cur edges rest seen paths).2.1
                (bfsEdgeFold root cur edges rest seen paths).2.2) := rfl
      rw [hstep] at h
      by_cases hd : cur.depth ≥ 20
      · rw [if_pos hd] at h
        exact ih rest seen paths res hinv hnd h
      · rw [if_neg hd] at h
        cases he : definitionEdgesF ef ((List.lookup cur.dfn defs).getD zeroSchemaValue) with
        | none =>
          rw [he] at h
          exact Option.noConfusion h
        | some edges =>
          rw [he] at h
          have h2 : bfsLoopF defs root ef fuel
              (bfsEdgeFold root cur edges rest seen paths).1
              (bfsEdgeFold root cur edges rest seen paths).2.1
              (bfsEdgeFold root cur edges rest seen paths).2.2 = some res := h
          obtain ⟨hinv2, hnd2⟩ := bfsEdgeFold_nodup root cur edges rest seen paths hinv hnd
          exact ih _ _ _ res hinv2 hnd2 h2

/-- C1: `buildDefinitionPaths` enumerates each definition's distinct root-relative
access paths exactly.  General part: every path list a successful run returns is
duplicate-free and sorted lexicographically (the BFS dedups on the
`(target, prefix)` seen key before recording a path).  Concrete part: on the
reused-definition scenario (root `Config` reaching `BuildSettings`/`SignOptions`
both directly and through an `additionalProperties`-keyed map), each definition
gets exactly its reachable chains — one path when one chain reaches it, and both
sorted paths when two chains do — and the property paths of `enabled` are exactly
`spec.projects.[].settings.sign.enabled` and `spec.settings.sign.enabled`. -/
theorem c1_definition_paths :
    (∀ (lf ef : Nat) (defs : List (String × SchemaValue)) (root : String)
        (res : String → List String),
      buildDefinitionPathsF lf ef defs root = some res →
      ∀ name, (res name).Nodup ∧ List.Sorted (· ≤ ·) (res name)) ∧
    ((buildDefinitionPathsF 100 50 defsC1 "Config").map (fun res =>
        (res "Config", res "BuildSpec", res "ProjectConfig", res "BuildSettings",
         res "SignOptions")) =
      some ([""], ["spec"], ["spec.projects.[]"],
        ["spec.projects.[].settings", "spec.settings"],
        ["spec.projects.[].settings.sign", "spec.settings.sign"])) ∧
    ((buildDefinitionPathsF 100 50 defsC1 "Config").map (fun res =>
        buildPropertyPaths (res "SignOptions") "enabled" false) =
      some ["spec.projects.[].settings.sign.enabled", "spec.settings.sign.enabled"]) := by
  refine ⟨?_, by rfl, by rfl⟩
  intro lf ef defs root res h name
  have h1 : (if trimString root = "" then some (fun _ => ([] : List String))
      else if (List.lookup root defs).isNone then some (fun _ => ([] : List String))
      else (bfsLoopF defs root ef lf
          [⟨root, "", 0⟩] [mkSeenKey root ""]
          (fun n => if n = root then [""] else [])).map
        (fun paths => fun n => sortStrings (paths n))) = some res := h
  by_cases ht : trimString root = ""
  · rw [if_pos ht] at h1
    have h2 : some (fun _ => ([] : List String)) = some res := h1
    cases h2
    exact ⟨List.nodup_nil, List.sorted_nil⟩
  · rw [if_neg ht] at h1
    by_cases hl : (List.lookup root defs).isNone = true
    · rw [if_pos hl] at h1
      have h2 : some (fun _ => ([] : List String)) = some res := h1
      cases h2
      exact ⟨List.nodup_nil, List.sorted_nil⟩
    · rw [if_neg hl] at h1
      cases hb : bfsLoopF defs root ef lf [⟨root, "", 0⟩] [mkSeenKey root ""]
          (fun n => if n = root then [""] else []) with
      | none =>
        rw [hb] at h1
        simp at h1
      | some paths =>
        rw [hb] at h1
        have h2 : some (fun n => sortStrings (paths n)) = some res := h1
        cases h2
        have hinv0 : ∀ name p,
            p ∈ (fun n => if n = root then [""] else ([] : List String)) name →
            mkSeenKey name p ∈ [mkSeenKey root ""] := by
          intro nm p hp
          have hp2 : p ∈ (if nm = root then [""] else ([] : List String)) := hp
          by_cases hn : nm = root
          · rw [if_pos hn] at hp2
            have hp3 : p = "" := List.mem_singleton.mp hp2
            rw [hp3, hn]
            exact List.mem_singleton.mpr rfl
          · rw [if_neg hn] at hp2
            cases hp2
        have hnd0 : ∀ name,
            ((fun n => if n = root then [""] else ([] : List String)) name).Nodup := by
          intro nm
          show (if nm = root then [""] else ([] : List String)).Nodup
          by_cases hn : nm = root
          · rw [if_pos hn]
            exact List.nodup_singleton _
          · rw [if_neg hn]
            exact List.nodup_nil
        have hnd := bfsLoopF_nodup defs root ef lf _ _ _ paths hinv0 hnd0 hb name
        exact ⟨nodup_sortStrings hnd, sorted_sortStrings _⟩

/-- Witness for C1 at a concrete input: a one-definition document whose root is
its only definition resolves to the root path alone, and the returned list is
duplicate-free and sorted. -/
theorem c1_witness :
    buildDefinitionPathsF 5 5 [("A", (⟨none, some []⟩ : SchemaValue))] "A" =
      some (fun n => sortStrings (if n = "A" then [""] else [])) ∧
    (sortStrings (if "A" = "A" then [""] else [])).Nodup ∧
    List.Sorted (· ≤ ·) (sortStrings (if "A" = "A" then [""] else [])) :=
  ⟨rfl,
   (c1_definition_paths.1 5 5 [("A", ⟨none, some []⟩)] "A"
      (fun n => sortStrings (if n = "A" then [""] else [])) rfl "A").1,
   (c1_definition_paths.1 5 5 [("A", ⟨none, some []⟩)] "A"
      (fun n => sortStrings (if n = "A" then [""] else [])) rfl "A").2⟩

/-- C10: the reference-activation state is restored to its pre-call contents after
every successful synthesis (`buildNodeF`) and shape-collection (`collectObjectShapeF`)
call, for any state satisfying the positivity invariant `ActiveOK`; in particular a
top-level `buildNodeF` invocation started on the empty `activeRefs` state leaves it
empty. -/
theorem c10_state_restoration :
    (∀ (B : Builder) (fuel : Nat) (a : Active) (sv : SchemaValue) (out : JSON × Active),
      ActiveOK a → buildNodeF B fuel a sv = some out → out.2 = a) ∧
    (∀ (B : Builder) (fuel : Nat) (a : Active) (sv : SchemaValue)
        (out : (List (String × SchemaValue) × List String) × Active),
      ActiveOK a → collectObjectShapeF B fuel a sv = some out → out.2 = a) ∧
    (∀ (B : Builder) (fuel : Nat) (sv : SchemaValue) (out : JSON × Active),
      buildNodeF B fuel [] sv = some out → out.2 = []) := by
  refine ⟨fun B fuel => (stateRestoreAll fuel).1 B,
    fun B fuel => (stateRestoreAll fuel).2.2.2.2.1 B, ?_⟩
  intro B fuel sv out h
  exact (stateRestoreAll fuel).1 B [] sv out (by intro p hp; cases hp) h

/-- Witness for C10 at a concrete input: building an example for the empty object
schema with empty active state succeeds and returns the empty state. -/
theorem c10_witness :
    ActiveOK ([] : Active) ∧
    buildNodeF bldPlain 5 [] ⟨none, some []⟩ = some (JSON.null, []) ∧
    (JSON.null, ([] : Active)).2 = [] :=
  ⟨(by intro p hp; cases hp), (by rfl),
    c10_state_restoration.1 bldPlain 5 [] ⟨none, some []⟩ (JSON.null, [])
      (by intro p hp; cases hp) (by rfl)⟩

/- ### C2: cycle safety.  Fuel-adequacy infrastructure: the fuelled
edge collector and BFS succeed for every document at large enough fuel,
so the fuel is a proof device and the Go loops terminate. -/

theorem foldlM_isSome {σ α : Type} (f : σ → α → Option σ) :
    ∀ (xs : List α), (∀ (s : σ) (x : α), x ∈ xs → (f s x).isSome) →
      ∀ (s : σ), (xs.foldlM f s).isSome := by
  intro xs
  induction xs with
  | nil =>
    intro _ s
    rfl
  | cons x rest ih =>
    intro h s
    rw [List.foldlM_cons]
    cases hfx : f s x with
    | none =>
      exact absurd (h s x (List.mem_cons_self _ _)) (by rw [hfx]; simp)
    | some s1 =>
      exact ih (fun s2 y hy => h s2 y (List.mem_cons_of_mem _ hy)) s1

theorem isSome_bind_of {α β : Type} {e : Option α} {f : α → Option β}
    (he : e.isSome) (hf : ∀ a, e = some a → (f a).isSome) : (e.bind f).isSome := by
  cases e with
  | none => exact absurd he (by simp)
  | some a => exact hf a rfl

theorem mem_jsonListSize : ∀ {xs : List JSON} {v : JSON}, v ∈ xs →
    jsonSize v < jsonListSize xs := by
  intro xs
  induction xs with
  | nil =>
    intro v hv
    cases hv
  | cons x rest ih =>
    intro v hv
    rcases List.mem_cons.mp hv with h | h
    · rw [h]
      show jsonSize x < 1 + jsonSize x + jsonListSize rest
      omega
    · have := ih h
      show jsonSize v < 1 + jsonSize x + jsonListSize rest
      omega

theorem mem_jsonObjSize : ∀ {o : List (String × JSON)} {k : String} {w : JSON},
    (k, w) ∈ o → jsonSize w < jsonObjSize o := by
  intro o
  induction o with
  | nil =>
    intro k w hv
    cases hv
  | cons kv rest ih =>
    intro k w hv
    rcases List.mem_cons.mp hv with h | h
    · have hw : w = kv.2 := congrArg Prod.snd h
      rw [hw]
      show jsonSize kv.2 < 1 + jsonSize kv.2 + jsonObjSize rest
      omega
    · have := ih h
      show jsonSize w < 1 + jsonSize kv.2 + jsonObjSize rest
      omega

theorem lookup_jsonSize {o : Obj} {k : String} {w : JSON}
    (h : List.lookup k o = some w) : jsonSize w < jsonObjSize o :=
  mem_jsonObjSize (lookup_mem h)

theorem asSlice_size {o : Obj} {k : String} {v : JSON}
    (hv : v ∈ asSlice (List.lookup k o)) : jsonSize v < jsonObjSize o := by
  cases hl : List.lookup k o with
  | none =>
    rw [hl] at hv
    have hv2 : v ∈ ([] : List JSON) := hv
    cases hv2
  | some w =>
    rw [hl] at hv
    cases w with
    | arr xs =>
      have hv2 : v ∈ xs := hv
      have h1 := mem_jsonListSize hv2
      have h2 := lookup_jsonSize hl
      have h3 : jsonSize (JSON.arr xs) = 1 + jsonListSize xs := rfl
      omega
    | null => exact absurd (show v ∈ ([] : List JSON) from hv) (by simp)
    | bool b => exact absurd (show v ∈ ([] : List JSON) from hv) (by simp)
    | num n => exact absurd (show v ∈ ([] : List JSON) from hv) (by simp)
    | str s => exact absurd (show v ∈ ([] : List JSON) from hv) (by simp)
    | obj fs => exact absurd (show v ∈ ([] : List JSON) from hv) (by simp)

theorem toSchemaValue_size {v : JSON} {sv : SchemaValue}
    (h : toSchemaValue (some v) = some sv) : svSize sv ≤ 2 * jsonSize v := by
  cases v with
  | null => exact Option.noConfusion h
  | num n => exact Option.noConfusion h
  | str s => exact Option.noConfusion h
  | arr xs => exact Option.noConfusion h
  | bool b =>
    have h2 : some (⟨some b, none⟩ : SchemaValue) = some sv := h
    cases h2
    exact (by omega : (1 : Nat) ≤ 2 * 1)
  | obj fs =>
    have h2 : some (⟨none, some fs⟩ : SchemaValue) = some sv := h
    cases h2
    have e1 : svSize ⟨none, some fs⟩ = 2 * jsonObjSize fs + 2 := rfl
    have e2 : jsonSize (JSON.obj fs) = 1 + jsonObjSize fs := rfl
    rw [e1, e2]
    omega

theorem mapSchemaValues_size {o : Obj} {k key : String} {child : SchemaValue}
    (h : List.lookup key (mapSchemaValues (List.lookup k o)) = some child) :
    svSize child ≤ 2 * jsonObjSize o := by
  cases hl : List.lookup k o with
  | none =>
    rw [hl] at h
    have h2 : List.lookup key ([] : List (String × SchemaValue)) = some child := h
    exact Option.noConfusion h2
  | some w =>
    rw [hl] at h
    cases w with
    | obj fs =>
      have h2 : List.lookup key
          (fs.filterMap fun kv => (toSchemaValue (some kv.2)).map ((kv.1, ·))) =
          some child := h
      have hmem := lookup_mem h2
      obtain ⟨kv, hkv, hf⟩ := List.mem_filterMap.mp hmem
      cases htv : toSchemaValue (some kv.2) with
      | none =>
        rw [htv] at hf
        exact Option.noConfusion hf
      | some sv1 =>
        rw [htv] at hf
        have hf2 : (kv.1, sv1) = (key, child) := Option.some.inj hf
        have hc : sv1 = child := congrArg Prod.snd hf2
        have h3 : svSize child ≤ 2 * jsonSize kv.2 := hc ▸ toSchemaValue_size htv
        have h4 : jsonSize kv.2 < jsonObjSize fs :=
          mem_jsonObjSize (show (kv.1, kv.2) ∈ fs from hkv)
        have h5 : jsonSize (JSON.obj fs) < jsonObjSize o := lookup_jsonSize hl
        have h6 : jsonSize (JSON.obj fs) = 1 + jsonObjSize fs := rfl
        omega
    | null =>
      exact Option.noConfusion
        (show List.lookup key ([] : List (String × SchemaValue)) = some child from h)
    | bool b =>
      exact Option.noConfusion
        (show List.lookup key ([] : List (String × SchemaValue)) = some child from h)
    | num n =>
      exact Option.noConfusion
        (show List.lookup key ([] : List (String × SchemaValue)) = some child from h)
    | str s =>
      exact Option.noConfusion
        (show List.lookup key ([] : List (String × SchemaValue)) = some child from h)
    | arr xs =>
      exact Option.noConfusion
        (show List.lookup key ([] : List (String × SchemaValue)) = some child from h)

theorem svSize_pos (sv : SchemaValue) : 1 ≤ svSize sv := by
  obtain ⟨bv, ov⟩ := sv
  cases ov with
  | none => exact le_refl 1
  | some o =>
    show 1 ≤ 2 * jsonObjSize o + 2
    omega

theorem rawSize_pos (raw : Option JSON) : 1 ≤ rawSize raw := by
  cases raw with
  | none => exact le_refl 1
  | some v =>
    show 1 ≤ 2 * jsonSize v + 1
    omega

theorem collectEdges_adequate : ∀ fuel : Nat,
    (∀ (sv : SchemaValue) (path : String) (m : EdgeMap),
      svSize sv ≤ fuel → (collectDefinitionEdgesF fuel sv path m).isSome) ∧
    (∀ (raw : Option JSON) (path : String) (m : EdgeMap),
      rawSize raw ≤ fuel → (collectDefinitionEdgesAnyF fuel raw path m).isSome) := by
  intro fuel
  induction fuel with
  | zero =>
    constructor
    · intro sv path m hsz
      exact absurd hsz (by have := svSize_pos sv; omega)
    · intro raw path m hsz
      exact absurd hsz (by have := rawSize_pos raw; omega)
  | succ fuel ih =>
    obtain ⟨Pc, Qc⟩ := ih
    constructor
    · intro sv path m hsz
      obtain ⟨bv, ov⟩ := sv
      cases ov with
      | none => rfl
      | some o =>
        have hsz2 : 2 * jsonObjSize o + 2 ≤ fuel + 1 := hsz
        have hslice : ∀ (k : String), ∀ v ∈ asSlice (List.lookup k o),
            rawSize (some v) ≤ fuel := by
          intro k v hv
          have h1 := asSlice_size hv
          have h2 : rawSize (some v) = 2 * jsonSize v + 1 := rfl
          omega
        have hlkw : ∀ (kw : String), rawSize (List.lookup kw o) ≤ fuel := by
          intro kw
          cases hl : List.lookup kw o with
          | none =>
            have h2 : rawSize (none : Option JSON) = 1 := rfl
            omega
          | some w =>
            have h2 : rawSize (some w) = 2 * jsonSize w + 1 := rfl
            have h3 := lookup_jsonSize hl
            omega
        have hprops : ∀ (pk key : String) (child : SchemaValue),
            List.lookup key (mapSchemaValues (List.lookup pk o)) = some child →
            svSize child ≤ fuel := by
          intro pk key child hlc
          have h1 := mapSchemaValues_size hlc
          omega
        refine isSome_bind_of
          (foldlM_isSome _ _ (fun s v hv => Qc (some v) path s (hslice "allOf" v hv)) _)
          (fun m1 _ => ?_)
        refine isSome_bind_of
          (foldlM_isSome _ _ (fun s v hv => Qc (some v) path s (hslice "anyOf" v hv)) _)
          (fun m2 _ => ?_)
        refine isSome_bind_of
          (foldlM_isSome _ _ (fun s v hv => Qc (some v) path s (hslice "oneOf" v hv)) _)
          (fun m3 _ => ?_)
        refine isSome_bind_of
          (foldlM_isSome _ _ (fun s kw _ => Qc (List.lookup kw o) path s (hlkw kw)) _)
          (fun m4 _ => ?_)
        refine isSome_bind_of
          (foldlM_isSome _ _
            (fun s kw _ => Qc (List.lookup kw o) (appendPath path "[]") s (hlkw kw)) _)
          (fun m5 _ => ?_)
        refine isSome_bind_of
          (foldlM_isSome _ _
            (fun s kw _ => Qc (List.lookup kw o) (appendPath path "[]") s (hlkw kw)) _)
          (fun m6 _ => ?_)
        refine isSome_bind_of (foldlM_isSome _ _ ?_ _) (fun m7 _ => ?_)
        · intro s key _
          cases hlc : List.lookup key (mapSchemaValues (List.lookup "properties" o)) with
          | none => rfl
          | some child =>
            exact Pc child (appendPath path key) s (hprops "properties" key child hlc)
        refine isSome_bind_of (foldlM_isSome _ _ ?_ _) (fun m8 _ => ?_)
        · intro s key _
          cases hlc : List.lookup key (mapSchemaValues (List.lookup "patternProperties" o)) with
          | none => rfl
          | some child =>
            exact Pc child (appendPath path key) s (hprops "patternProperties" key child hlc)
        rfl
    · intro raw path m hsz
      cases raw with
      | none => rfl
      | some v =>
        cases v with
        | null => rfl
        | num n => rfl
        | str s => rfl
        | bool b =>
          have h2 : svSize ⟨some b, none⟩ = 1 := rfl
          have h3 : rawSize (some (JSON.bool b)) = 3 := rfl
          exact Pc ⟨some b, none⟩ path m (by omega)
        | obj fs =>
          have h2 : svSize ⟨none, some fs⟩ = 2 * jsonObjSize fs + 2 := rfl
          have h3 : rawSize (some (JSON.obj fs)) = 2 * (1 + jsonObjSize fs) + 1 := rfl
          exact Pc ⟨none, some fs⟩ path m (by omega)
        | arr xs =>
          refine foldlM_isSome _ _ (fun s v hv => Qc (some v) path s ?_) m
          have h1 := mem_jsonListSize hv
          have h2 : rawSize (some v) = 2 * jsonSize v + 1 := rfl
          have h3 : rawSize (some (JSON.arr xs)) = 2 * (1 + jsonListSize xs) + 1 := rfl
          omega

theorem definitionEdges_adequate (ef : Nat) (sv : SchemaValue) (h : svSize sv ≤ ef) :
    (definitionEdgesF ef sv).isSome := by
  obtain ⟨bv, ov⟩ := sv
  cases ov with
  | none => rfl
  | some o =>
    have hsz : 2 * jsonObjSize o + 2 ≤ ef := h
    show (definitionEdgesF ef ⟨bv, some o⟩).isSome
    have hstep : definitionEdgesF ef ⟨bv, some o⟩ =
        (if (mapSchemaValues (List.lookup "properties" o)).isEmpty then some []
        else
          ((sortedSchemaValueKeys (mapSchemaValues (List.lookup "properties" o))).foldlM
            (fun m name =>
              match List.lookup name (mapSchemaValues (List.lookup "properties" o)) with
              | some child => collectDefinitionEdgesF ef child name m
              | none => some m) ([] : EdgeMap)).bind
            (fun m =>
              if m.isEmpty then pure []
              else pure ((sortStrings (m.map Prod.fst)).filterMap
                (fun key => List.lookup key m)))) := rfl
    rw [hstep]
    by_cases hp : (mapSchemaValues (List.lookup "properties" o)).isEmpty = true
    · rw [if_pos hp]
      rfl
    · rw [if_neg hp]
      refine isSome_bind_of (foldlM_isSome _ _ ?_ _) (fun m1 _ => ?_)
      · intro s name _
        cases hlc : List.lookup name (mapSchemaValues (List.lookup "properties" o)) with
        | none => rfl
        | some child =>
          refine (collectEdges_adequate ef).1 child name s ?_
          have h1 := mapSchemaValues_size hlc
          omega
      · by_cases hm : m1.isEmpty = true
        · rw [if_pos hm]
          rfl
        · rw [if_neg hm]
          rfl

theorem le_foldl_max : ∀ (l : List Nat) (a : Nat), a ≤ l.foldl max a := by
  intro l
  induction l with
  | nil =>
    intro a
    exact le_refl a
  | cons x rest ih =>
    intro a
    exact le_trans (le_max_left a x) (ih (max a x))

theorem mem_le_foldl_max : ∀ (l : List Nat) (a x : Nat), x ∈ l → x ≤ l.foldl max a := by
  intro l
  induction l with
  | nil =>
    intro a x hx
    cases hx
  | cons y rest ih =>
    intro a x hx
    rcases List.mem_cons.mp hx with h | h
    · rw [h]
      exact le_trans (le_max_right a y) (le_foldl_max rest (max a y))
    · exact ih (max a y) x h

theorem sum_map_const {α : Type} : ∀ (l : List α) (f : α → Nat) (c : Nat),
    (∀ x ∈ l, f x = c) → (l.map f).sum = l.length * c := by
  intro l
  induction l with
  | nil =>
    intro f c _
    simp
  | cons x rest ih =>
    intro f c h
    simp only [List.map_cons, List.sum_cons, List.length_cons]
    rw [h x (List.mem_cons_self _ _), ih f c (fun y hy => h y (List.mem_cons_of_mem _ hy))]
    ring

theorem bfsEdgeFold_queue_extra (root : String) (cur : BfsItem) :
    ∀ (edges : List DefEdge) (queue : List BfsItem) (seen : List String)
      (paths : String → List String),
      ∃ extra, (bfsEdgeFold root cur edges queue seen paths).1 = queue ++ extra ∧
        extra.length ≤ edges.length ∧ ∀ i ∈ extra, i.depth = cur.depth + 1 := by
  intro edges
  induction edges with
  | nil =>
    intro queue seen paths
    exact ⟨[], by rw [List.append_nil]; rfl, by simp, by intro i hi; cases hi⟩
  | cons e rest ih =>
    intro queue seen paths
    obtain ⟨path, target⟩ := e
    have hstep : bfsEdgeFold root cur ((path, target) :: rest) queue seen paths =
        (if target = root then bfsEdgeFold root cur rest queue seen paths
        else if trimString (appendPath cur.pfx path) = "" then
          bfsEdgeFold root cur rest queue seen paths
        else if mkSeenKey target (appendPath cur.pfx path) ∈ seen then
          bfsEdgeFold root cur rest queue seen paths
        else
          bfsEdgeFold root cur rest
            (queue ++ [⟨target, appendPath cur.pfx path, cur.depth + 1⟩])
            (mkSeenKey target (appendPath cur.pfx path) :: seen)
            (fun n => if n = target then
                paths n ++ [appendPath cur.pfx path]
              else paths n)) := rfl
    rw [hstep]
    by_cases ht : target = root
    · rw [if_pos ht]
      obtain ⟨extra, h1, h2, h3⟩ := ih queue seen paths
      exact ⟨extra, h1, Nat.le_succ_of_le h2, h3⟩
    · rw [if_neg ht]
      by_cases htrim : trimString (appendPath cur.pfx path) = ""
      · rw [if_pos htrim]
        obtain ⟨extra, h1, h2, h3⟩ := ih queue seen paths
        exact ⟨extra, h1, Nat.le_succ_of_le h2, h3⟩
      · rw [if_neg htrim]
        by_cases hkey : mkSeenKey target (appendPath cur.pfx path) ∈ seen
        · rw [if_pos hkey]
          obtain ⟨extra, h1, h2, h3⟩ := ih queue seen paths
          exact ⟨extra, h1, Nat.le_succ_of_le h2, h3⟩
        · rw [if_neg hkey]
          obtain ⟨extra, h1, h2, h3⟩ :=
            ih (queue ++ [⟨target, appendPath cur.pfx path, cur.depth + 1⟩])
              (mkSeenKey target (appendPath cur.pfx path) :: seen)
              (fun n => if n = target then
                  paths n ++ [appendPath cur.pfx path]
                else paths n)
          refine ⟨⟨target, appendPath cur.pfx path, cur.depth + 1⟩ :: extra, ?_, ?_, ?_⟩
          · rw [h1, List.append_assoc]
            rfl
          · show extra.length + 1 ≤ rest.length + 1
            omega
          · intro i hi
            rcases List.mem_cons.mp hi with h | h
            · rw [h]
            · exact h3 i h

theorem bfsLoop_measure (defs : List (String × SchemaValue)) (root : String) (ef E : Nat)
    (hA : ∀ name, (definitionEdgesF ef
      ((List.lookup name defs).getD zeroSchemaValue)).isSome)
    (hE : ∀ name edges,
      definitionEdgesF ef ((List.lookup name defs).getD zeroSchemaValue) = some edges →
      edges.length ≤ E) :
    ∀ (fuel : Nat) (queue : List BfsItem) (seen : List String)
      (paths : String → List String),
      (queue.map (fun i => (E + 1) ^ (20 - i.depth))).sum < fuel →
      (bfsLoopF defs root ef fuel queue seen paths).isSome := by
  intro fuel
  induction fuel with
  | zero =>
    intro queue seen paths hM
    exact absurd hM (Nat.not_lt_zero _)
  | succ fuel ih =>
    intro queue seen paths hM
    cases queue with
    | nil => rfl
    | cons cur rest =>
      have hMses : (E + 1) ^ (20 - cur.depth) +
          (rest.map (fun i => (E + 1) ^ (20 - i.depth))).sum < fuel + 1 := by
        have hsc : ((cur :: rest).map (fun i => (E + 1) ^ (20 - i.depth))).sum =
            (E + 1) ^ (20 - cur.depth) +
              (rest.map (fun i => (E + 1) ^ (20 - i.depth))).sum := by
          simp
        rw [hsc] at hM
        exact hM
      have hstep : bfsLoopF defs root ef (fuel + 1) (cur :: rest) seen paths =
          (if cur.depth ≥ 20 then bfsLoopF defs root ef fuel rest seen paths
          else
            match definitionEdgesF ef ((List.lookup cur.dfn defs).getD zeroSchemaValue) with
            | none => none
            | some edges =>
              bfsLoopF defs root ef fuel
                (bfsEdgeFold root cur edges rest seen paths).1
                (bfsEdgeFold root cur edges rest seen paths).2.1
                (bfsEdgeFold root cur edges rest seen paths).2.2) := rfl
      rw [hstep]
      by_cases hd : cur.depth ≥ 20
      · rw [if_pos hd]
        apply ih
        have hw : 20 - cur.depth = 0 := Nat.sub_eq_zero_of_le hd
        rw [hw, pow_zero] at hMses
        omega
      · rw [if_neg hd]
        have hds : cur.depth < 20 := Nat.lt_of_not_le hd
        cases he : definitionEdgesF ef ((List.lookup cur.dfn defs).getD zeroSchemaValue) with
        | none => exact absurd (hA cur.dfn) (by rw [he]; simp)
        | some edges =>
          obtain ⟨extra, hq, hlen, hdep⟩ := bfsEdgeFold_queue_extra root cur edges rest seen paths
          apply ih
          rw [hq, List.map_append, List.sum_append]
          have hc1 : 1 ≤ (E + 1) ^ (19 - cur.depth) := Nat.one_le_pow _ _ (by omega)
          have hsum : (extra.map (fun i => (E + 1) ^ (20 - i.depth))).sum =
              extra.length * (E + 1) ^ (19 - cur.depth) := by
            refine sum_map_const _ _ _ ?_
            intro i hi
            have hdi := hdep i hi
            show (E + 1) ^ (20 - i.depth) = (E + 1) ^ (19 - cur.depth)
            rw [hdi]
            have h19 : 20 - (cur.depth + 1) = 19 - cur.depth := by omega
            rw [h19]
          have hle : extra.length ≤ E := le_trans hlen (hE cur.dfn edges he)
          have hmul : extra.length * (E + 1) ^ (19 - cur.depth) ≤
              E * (E + 1) ^ (19 - cur.depth) :=
            Nat.mul_le_mul_right _ hle
          have hcur : (E + 1) ^ (20 - cur.depth) =
              E * (E + 1) ^ (19 - cur.depth) + (E + 1) ^ (19 - cur.depth) := by
            have h20 : 20 - cur.depth = (19 - cur.depth) + 1 := by omega
            rw [h20, pow_succ]
            ring
          rw [hsum]
          linarith [hmul, hcur, hc1, hMses]

theorem buildDefinitionPaths_total (defs : List (String × SchemaValue)) (root : String) :
    ∃ lf ef, (buildDefinitionPathsF lf ef defs root).isSome := by
  by_cases ht : trimString root = ""
  · refine ⟨1, 1, ?_⟩
    have h1 : buildDefinitionPathsF 1 1 defs root =
        (if trimString root = "" then some (fun _ => ([] : List String))
        else if (List.lookup root defs).isNone then some (fun _ => ([] : List String))
        else (bfsLoopF defs root 1 1 [⟨root, "", 0⟩] [mkSeenKey root ""]
            (fun n => if n = root then [""] else [])).map
          (fun paths => fun n => sortStrings (paths n))) := rfl
    rw [h1, if_pos ht]
    rfl
  · by_cases hl : (List.lookup root defs).isNone = true
    · refine ⟨1, 1, ?_⟩
      have h1 : buildDefinitionPathsF 1 1 defs root =
          (if trimString root = "" then some (fun _ => ([] : List String))
          else if (List.lookup root defs).isNone then some (fun _ => ([] : List String))
          else (bfsLoopF defs root 1 1 [⟨root, "", 0⟩] [mkSeenKey root ""]
              (fun n => if n = root then [""] else [])).map
            (fun paths => fun n => sortStrings (paths n))) := rfl
      rw [h1, if_neg ht, if_pos hl]
      rfl
    · set EF := (defs.map (fun p => svSize p.2)).foldl max 0 with hEF
      have hA : ∀ name,
          (definitionEdgesF EF ((List.lookup name defs).getD zeroSchemaValue)).isSome := by
        intro name
        cases hln : List.lookup name defs with
        | none =>
          show (definitionEdgesF EF zeroSchemaValue).isSome
          rfl
        | some sv =>
          show (definitionEdgesF EF sv).isSome
          refine definitionEdges_adequate EF sv ?_
          have hmem : svSize sv ∈ defs.map (fun p => svSize p.2) :=
            List.mem_map.mpr ⟨(name, sv), lookup_mem hln, rfl⟩
          exact mem_le_foldl_max _ 0 _ hmem
      set EB := (defs.map (fun p => ((definitionEdgesF EF p.2).getD []).length)).foldl max 0
        with hEB
      have hE : ∀ name edges,
          definitionEdgesF EF ((List.lookup name defs).getD zeroSchemaValue) = some edges →
          edges.length ≤ EB := by
        intro name edges hed
        cases hln : List.lookup name defs with
        | none =>
          rw [hln] at hed
          have hed2 : definitionEdgesF EF zeroSchemaValue = some edges := hed
          have hz : definitionEdgesF EF zeroSchemaValue = some [] := rfl
          rw [hz] at hed2
          cases hed2
          exact Nat.zero_le EB
        | some sv =>
          rw [hln] at hed
          have hed2 : definitionEdgesF EF sv = some edges := hed
          have hmem : ((definitionEdgesF EF sv).getD []).length ∈
              defs.map (fun p => ((definitionEdgesF EF p.2).getD []).length) :=
            List.mem_map.mpr ⟨(name, sv), lookup_mem hln, rfl⟩
          have hv : ((definitionEdgesF EF sv).getD []).length = edges.length := by
            rw [hed2]
            rfl
          rw [← hv]
          exact mem_le_foldl_max _ 0 _ hmem
      refine ⟨(EB + 1) ^ 20 + 1, EF, ?_⟩
      have hms : (([⟨root, "", 0⟩] : List BfsItem).map
          (fun i => (EB + 1) ^ (20 - i.depth))).sum = (EB + 1) ^ 20 := by
        simp
      have hloop := bfsLoop_measure defs root EF EB hA hE ((EB + 1) ^ 20 + 1)
        [⟨root, "", 0⟩] [mkSeenKey root ""] (fun n => if n = root then [""] else [])
        (by rw [hms]; omega)
      have h1 : buildDefinitionPathsF ((EB + 1) ^ 20 + 1) EF defs root =
          (if trimString root = "" then some (fun _ => ([] : List String))
          else if (List.lookup root defs).isNone then some (fun _ => ([] : List String))
          else (bfsLoopF defs root EF ((EB + 1) ^ 20 + 1) [⟨root, "", 0⟩]
              [mkSeenKey root ""] (fun n => if n = root then [""] else [])).map
            (fun paths => fun n => sortStrings (paths n))) := rfl
      rw [h1, if_neg ht, if_neg hl]
      cases hb : bfsLoopF defs root EF ((EB + 1) ^ 20 + 1) [⟨root, "", 0⟩]
          [mkSeenKey root ""] (fun n => if n = root then [""] else []) with
      | none =>
        rw [hb] at hloop
        exact absurd hloop (by simp)
      | some paths =>
        rfl

theorem resolveLocal_blank (B : Builder) (r : String) (h : trimString r = "") :
    resolveLocalReference B r = none := by
  simp [resolveLocalReference, h]

theorem enterReference_refuse (a : Active) (r : String) (h1 : trimString r ≠ "")
    (h2 : activeCount a (trimString r) > 0) :
    enterReference a r = (.refuse, a) := by
  have he : enterReference a r =
      (if trimString r = "" then ((.noop : EnterOutcome), a)
      else if activeCount a (trimString r) > 0 then (.refuse, a)
      else (.activate (trimString r),
        activeSet a (trimString r) (activeCount a (trimString r) + 1))) := rfl
  rw [he, if_neg h1, if_pos h2]

theorem buildNode_guard_null (B : Builder) (fuel : Nat) (a : Active) (o : Obj)
    (r : String) (sv : SchemaValue) (ro : Obj)
    (h1 : List.lookup "$ref" o = some (.str r))
    (h2 : resolveLocalReference B r = some sv)
    (h3 : sv.objv = some ro)
    (h4 : 0 < activeCount a (trimString r)) :
    buildNodeF B (fuel + 1) a ⟨none, some o⟩ = some (JSON.null, a) := by
  obtain ⟨sbv, sov⟩ := sv
  have hsov : sov = some ro := h3
  subst hsov
  have htrim : trimString r ≠ "" := by
    intro hcon
    rw [resolveLocal_blank B r hcon] at h2
    exact Option.noConfusion h2
  have hrne : asString (List.lookup "$ref" o) ≠ "" := by
    rw [h1]
    show r ≠ ""
    intro hcon
    exact htrim (by rw [hcon]; rfl)
  have hent : enterReference a (asString (List.lookup "$ref" o)) = (.refuse, a) := by
    rw [h1]
    show enterReference a r = (.refuse, a)
    exact enterReference_refuse a r htrim h4
  have hres : resolvedObjectForReferenceS B a o = (.refused, a) := by
    have hr1 : resolvedObjectForReferenceS B a o =
        (if asString (List.lookup "$ref" o) = "" then ((.notRef : RefOutcome), a)
        else
          match resolveLocalReference B (asString (List.lookup "$ref" o)) with
          | none => (.degraded (stripReferenceKeyword o), a)
          | some sv =>
            match sv.objv with
            | none => (.degraded (stripReferenceKeyword o), a)
            | some resolvedObj =>
              match enterReference a (asString (List.lookup "$ref" o)) with
              | (.refuse, a1) => (.refused, a1)
              | (.noop, a1) => (.entered (mergeSchemaObjects resolvedObj o) none, a1)
              | (.activate k, a1) =>
                (.entered (mergeSchemaObjects resolvedObj o) (some k), a1)) := rfl
    rw [hr1, if_neg hrne]
    have h2b : resolveLocalReference B (asString (List.lookup "$ref" o)) =
        some ⟨sbv, some ro⟩ := by
      rw [h1]
      exact h2
    rw [h2b]
    have hfin : (match enterReference a (asString (List.lookup "$ref" o)) with
        | ((.refuse : EnterOutcome), a1) => ((.refused : RefOutcome), a1)
        | (.noop, a1) => (.entered (mergeSchemaObjects ro o) none, a1)
        | (.activate k, a1) => (.entered (mergeSchemaObjects ro o) (some k), a1)) =
        ((.refused : RefOutcome), a) := by
      rw [hent]
    exact hfin
  rw [buildNodeF_succ_obj, hres]

/-- C2: termination and cycle safety.  Universal part: for every schema
document and root some fuel makes the embedded `buildDefinitionPaths`
succeed (the Go BFS terminates on every document: the depth cap bounds
the weighted queue measure), any queue item at the depth cap of 20 is
dropped without expansion and without an error, an edge whose target
is the root definition is always excluded from path recording, and a
`$ref` whose resolved key is already active is refused by the guard:
the node synthesizes to `null` with the activation state unchanged.
Concrete part: a definition referencing itself directly or via `allOf`
synthesizes within finite fuel (the self branch null, the overlay
inert), and path enumeration records only the root path for the
self-referential root while a non-root self-reference is cut by the
depth cap after exactly 20 paths. -/
theorem c2_cycle_safety :
    (∀ (defs : List (String × SchemaValue)) (root : String),
      ∃ lf ef, (buildDefinitionPathsF lf ef defs root).isSome) ∧
    (∀ (defs : List (String × SchemaValue)) (root : String) (ef fuel : Nat)
        (cur : BfsItem) (rest : List BfsItem) (seen : List String)
        (paths : String → List String),
      20 ≤ cur.depth →
      bfsLoopF defs root ef (fuel + 1) (cur :: rest) seen paths =
        bfsLoopF defs root ef fuel rest seen paths) ∧
    (∀ (root : String) (cur : BfsItem) (path : String) (rest : List DefEdge)
        (queue : List BfsItem) (seen : List String) (paths : String → List String),
      bfsEdgeFold root cur ((path, root) :: rest) queue seen paths =
        bfsEdgeFold root cur rest queue seen paths) ∧
    (∀ (B : Builder) (fuel : Nat) (a : Active) (o : Obj) (r : String)
        (sv : SchemaValue) (ro : Obj),
      List.lookup "$ref" o = some (.str r) →
      resolveLocalReference B r = some sv →
      sv.objv = some ro →
      0 < activeCount a (trimString r) →
      buildNodeF B (fuel + 1) a ⟨none, some o⟩ = some (JSON.null, a)) ∧
    buildNodeF bldSelfDirect 50 [] ⟨none, some docSelfDirect⟩ =
        some (.obj [("self", .null)], []) ∧
    buildNodeF bldSelfAllOf 50 [] ⟨none, some docSelfAllOf⟩ =
        some (.obj [("x", .str "<string>")], []) ∧
    (buildDefinitionPathsF 50 50 [("A", ⟨none, some objSelfDirect⟩)] "A").map
        (fun r => r "A") = some [""] ∧
    (buildDefinitionPathsF 50 50 [("A", ⟨none, some objSelfAllOf⟩)] "A").map
        (fun r => r "A") = some [""] ∧
    (buildDefinitionPathsF 500 50 [("A", svDeepA), ("B", svDeepB)] "A").map
        (fun r => (r "B").length) = some 20 := by
  refine ⟨buildDefinitionPaths_total, ?_, ?_, buildNode_guard_null,
    rfl, rfl, by decide, by decide, by decide⟩
  · intro defs root ef fuel cur rest seen paths hd
    have hstep : bfsLoopF defs root ef (fuel + 1) (cur :: rest) seen paths =
        (if cur.depth ≥ 20 then bfsLoopF defs root ef fuel rest seen paths
        else
          match definitionEdgesF ef ((List.lookup cur.dfn defs).getD zeroSchemaValue) with
          | none => none
          | some edges =>
            bfsLoopF defs root ef fuel
              (bfsEdgeFold root cur edges rest seen paths).1
              (bfsEdgeFold root cur edges rest seen paths).2.1
              (bfsEdgeFold root cur edges rest seen paths).2.2) := rfl
    rw [hstep, if_pos hd]
  · intro root cur path rest queue seen paths
    have hstep : bfsEdgeFold root cur ((path, root) :: rest) queue seen paths =
        (if root = root then bfsEdgeFold root cur rest queue seen paths
        else if trimString (appendPath cur.pfx path) = "" then
          bfsEdgeFold root cur rest queue seen paths
        else if mkSeenKey root (appendPath cur.pfx path) ∈ seen then
          bfsEdgeFold root cur rest queue seen paths
        else
          bfsEdgeFold root cur rest
            (queue ++ [⟨root, appendPath cur.pfx path, cur.depth + 1⟩])
            (mkSeenKey root (appendPath cur.pfx path) :: seen)
            (fun n => if n = root then
                paths n ++ [appendPath cur.pfx path]
              else paths n)) := rfl
    rw [hstep, if_pos rfl]

/-- Witness for C2 at concrete inputs: a queue item at depth 25 is dropped
by the cap, and a re-entrant `$ref` on the self-referential fixture with
its key already active synthesizes to null with the state unchanged. -/
theorem c2_witness :
    (20 ≤ (⟨"A", "p", 25⟩ : BfsItem).depth ∧
      bfsLoopF [] "r" 1 1 [⟨"A", "p", 25⟩] [] (fun _ => []) =
        bfsLoopF [] "r" 1 0 [] [] (fun _ => [])) ∧
    (List.lookup "$ref" docSelfDirect = some (.str "#/$defs/A") ∧
      resolveLocalReference bldSelfDirect "#/$defs/A" =
        some ⟨none, some objSelfDirect⟩ ∧
      (⟨none, some objSelfDirect⟩ : SchemaValue).objv = some objSelfDirect ∧
      0 < activeCount [("#/$defs/A", 1)] (trimString "#/$defs/A") ∧
      buildNodeF bldSelfDirect 4 [("#/$defs/A", 1)] ⟨none, some docSelfDirect⟩ =
        some (JSON.null, [("#/$defs/A", 1)])) :=
  ⟨⟨by decide,
    c2_cycle_safety.2.1 [] "r" 1 0 ⟨"A", "p", 25⟩ [] [] (fun _ => []) (by decide)⟩,
   ⟨by rfl, by rfl, rfl, by decide,
    c2_cycle_safety.2.2.2.1 bldSelfDirect 3 [("#/$defs/A", 1)] docSelfDirect "#/$defs/A"
      ⟨none, some objSelfDirect⟩ objSelfDirect (by rfl) (by rfl) rfl (by decide)⟩⟩

end Schemadoc
